import Mathlib

/-!
Shallow embedding of the mini-kv storage engine (Python sources
`minikv/engine.py`, `minikv/wal.py`, `minikv/sst.py`, `minikv/compaction.py`,
`minikv/config.py`).

Modelling conventions:
* Python strings are modelled as lists of unicode characters (`Txt`);
  Python's `<` on strings is code-point lexicographic comparison (`ltStr`).
* A file's content is modelled as the text it holds; iterating the lines of a
  file (Python `for line in f`, followed by `rstrip("\n")`) is modelled by
  `splitNl`, which yields the newline-free line bodies.
* `time.time()` is modelled as a rational-valued input supplied to each
  operation; Python float arithmetic is idealized as exact rational
  arithmetic.
* In-place mutation is modelled by explicit state passing: each operation
  returns the updated engine state, and fallible operations additionally
  return an `Except` result (a raised exception leaves the state unchanged,
  which matches the Python code, where the raise happens before any
  mutation).
-/

abbrev Txt := List Char

/-- The tombstone sentinel `__MINIKV_TOMBSTONE__` (engine.py / wal.py). -/
def TOMBSTONE : Txt := "__MINIKV_TOMBSTONE__".data

/-- Python's `<` on strings: code-point lexicographic comparison. -/
def ltStr : Txt → Txt → Bool
  | [], [] => false
  | [], _ :: _ => true
  | _ :: _, [] => false
  | a :: as, b :: bs => if a < b then true else if b < a then false else ltStr as bs

/-- Python's `<=` on strings (total-order complement of `ltStr`). -/
def leStr (a b : Txt) : Bool := !(ltStr b a)

theorem ltStr_irrefl (a : Txt) : ltStr a a = false := by
  induction a with
  | nil => rfl
  | cons c cs ih => simp [ltStr, ih]

theorem ltStr_trans {a b c : Txt} (hab : ltStr a b = true) (hbc : ltStr b c = true) :
    ltStr a c = true := by
  induction a generalizing b c with
  | nil =>
    cases b with
    | nil => simp [ltStr] at hab
    | cons y ys =>
      cases c with
      | nil => simp [ltStr] at hbc
      | cons z zs => simp [ltStr]
  | cons x xs ih =>
    cases b with
    | nil => simp [ltStr] at hab
    | cons y ys =>
      cases c with
      | nil => simp [ltStr] at hbc
      | cons z zs =>
        simp only [ltStr] at hab hbc ⊢
        rcases lt_trichotomy x y with hxy | hxy | hxy
        · rcases lt_trichotomy y z with hyz | hyz | hyz
          · rw [if_pos (lt_trans hxy hyz)]
          · subst hyz; rw [if_pos hxy]
          · rw [if_neg (lt_asymm hyz), if_pos hyz] at hbc
            simp at hbc
        · subst hxy
          rw [if_neg (lt_irrefl x), if_neg (lt_irrefl x)] at hab
          rcases lt_trichotomy x z with hxz | hxz | hxz
          · rw [if_pos hxz]
          · subst hxz
            rw [if_neg (lt_irrefl x), if_neg (lt_irrefl x)] at hbc ⊢
            exact ih hab hbc
          · rw [if_neg (lt_asymm hxz), if_pos hxz] at hbc
            simp at hbc
        · rw [if_neg (lt_asymm hxy), if_pos hxy] at hab
          simp at hab

theorem ltStr_connex {a b : Txt} (hab : ltStr a b = false) (hba : ltStr b a = false) :
    a = b := by
  induction a generalizing b with
  | nil =>
    cases b with
    | nil => rfl
    | cons y ys => simp [ltStr] at hab
  | cons x xs ih =>
    cases b with
    | nil => simp [ltStr] at hba
    | cons y ys =>
      simp only [ltStr] at hab hba
      by_cases hxy : x < y
      · simp [hxy] at hab
      · by_cases hyx : y < x
        · simp [hyx, hxy] at hba
        · have hx : x = y := le_antisymm (not_lt.mp hyx) (not_lt.mp hxy)
          subst hx
          simp only [lt_irrefl, if_false] at hab hba
          rw [ih hab hba]

theorem ltStr_asymm {a b : Txt} (hab : ltStr a b = true) : ltStr b a = false := by
  cases hba : ltStr b a with
  | false => rfl
  | true =>
    have h2 := ltStr_trans hab hba
    rw [ltStr_irrefl] at h2
    simp at h2

theorem leStr_refl (a : Txt) : leStr a a = true := by
  simp [leStr, ltStr_irrefl]

theorem leStr_total (a b : Txt) : (leStr a b || leStr b a) = true := by
  simp only [leStr, Bool.or_eq_true, Bool.not_eq_true']
  cases h : ltStr b a with
  | false => left; rfl
  | true => right; exact ltStr_asymm h

theorem leStr_trans {a b c : Txt} (hab : leStr a b = true) (hbc : leStr b c = true) :
    leStr a c = true := by
  simp only [leStr, Bool.not_eq_true'] at hab hbc ⊢
  cases hca : ltStr c a with
  | false => rfl
  | true =>
    exfalso
    cases hab' : ltStr a b with
    | true =>
      have h2 := ltStr_trans hca hab'
      rw [h2] at hbc
      simp at hbc
    | false =>
      have he : a = b := ltStr_connex hab' hab
      subst he
      rw [hca] at hbc
      simp at hbc

theorem leStr_of_ne {a b : Txt} (hab : leStr a b = true) (hne : a ≠ b) :
    ltStr a b = true := by
  simp only [leStr, Bool.not_eq_true'] at hab
  cases hcase : ltStr a b with
  | true => rfl
  | false => exact absurd (ltStr_connex hcase hab) hne

theorem ltStr_ne {a b : Txt} (h : ltStr a b = true) : a ≠ b := by
  intro he; subst he; rw [ltStr_irrefl] at h; exact Bool.false_ne_true h

/-- Splitting a file's text into the bodies of its newline-terminated lines.
This models Python's `for line in f` followed by `line.rstrip("\n")`:
`"a\nb\n" ↦ ["a","b"]`, `"a\nb" ↦ ["a","b"]`, `"" ↦ []`. -/
def splitNl : Txt → List Txt
  | [] => []
  | c :: cs =>
    if c = '\n' then [] :: splitNl cs
    else
      match splitNl cs with
      | [] => [[c]]
      | l :: ls => (c :: l) :: ls

theorem splitNl_append_line {l : Txt} (hl : '\n' ∉ l) (r : Txt) :
    splitNl (l ++ '\n' :: r) = l :: splitNl r := by
  induction l with
  | nil => simp [splitNl]
  | cons c cs ih =>
    have hc : c ≠ '\n' := fun h => hl (h ▸ List.mem_cons_self c cs)
    have hcs : '\n' ∉ cs := fun h => hl (List.mem_cons_of_mem c h)
    simp only [List.cons_append, splitNl, List.append_eq]
    rw [if_neg hc, ih hcs]

/-- Python's `line.split("\t", 1)`, returning `none` when the line holds no
tab (so that `len(parts) != 2` and the line is skipped). -/
def splitFirstTab : Txt → Option (Txt × Txt)
  | [] => none
  | c :: cs =>
    if c = '\t' then some ([], cs)
    else
      match splitFirstTab cs with
      | none => none
      | some (a, b) => some (c :: a, b)

theorem splitFirstTab_encode {k : Txt} (hk : '\t' ∉ k) (v : Txt) :
    splitFirstTab (k ++ '\t' :: v) = some (k, v) := by
  induction k with
  | nil => simp [splitFirstTab]
  | cons c cs ih =>
    have hc : c ≠ '\t' := fun h => hk (h ▸ List.mem_cons_self c cs)
    have hcs : '\t' ∉ cs := fun h => hk (List.mem_cons_of_mem c h)
    simp only [List.cons_append, splitFirstTab, List.append_eq]
    rw [if_neg hc, ih hcs]

/-- Python's `line.split("\t")` (split on every tab; never empty). -/
def splitTabs : Txt → List Txt
  | [] => [[]]
  | c :: cs =>
    if c = '\t' then [] :: splitTabs cs
    else
      match splitTabs cs with
      | [] => [[c]]
      | p :: ps => (c :: p) :: ps

theorem splitTabs_no_tab {s : Txt} (hs : '\t' ∉ s) : splitTabs s = [s] := by
  induction s with
  | nil => rfl
  | cons c cs ih =>
    have hc : c ≠ '\t' := fun h => hs (h ▸ List.mem_cons_self c cs)
    have hcs : '\t' ∉ cs := fun h => hs (List.mem_cons_of_mem c h)
    simp [splitTabs, hc, ih hcs]

theorem splitTabs_append {a : Txt} (ha : '\t' ∉ a) (r : Txt) :
    splitTabs (a ++ '\t' :: r) = a :: splitTabs r := by
  induction a with
  | nil => simp [splitTabs]
  | cons c cs ih =>
    have hc : c ≠ '\t' := fun h => ha (h ▸ List.mem_cons_self c cs)
    have hcs : '\t' ∉ cs := fun h => ha (List.mem_cons_of_mem c h)
    simp only [List.cons_append, splitTabs, List.append_eq]
    rw [if_neg hc, ih hcs]

/-- Python dict lookup `m.get(k)` (keys are unique in a dict, so the first
match is the match). -/
def dGet : List (Txt × Txt) → Txt → Option Txt
  | [], _ => none
  | (k', v) :: rest, k => if k' = k then some v else dGet rest k

/-- Python dict assignment `m[k] = v`: updates in place if the key is
present, otherwise appends (insertion order). -/
def dSet : List (Txt × Txt) → Txt → Txt → List (Txt × Txt)
  | [], k, v => [(k, v)]
  | (k', v') :: rest, k, v =>
    if k' = k then (k', v) :: rest else (k', v') :: dSet rest k v

theorem dSet_ne_nil (m : List (Txt × Txt)) (k v : Txt) : dSet m k v ≠ [] := by
  cases m with
  | nil => simp [dSet]
  | cons p rest =>
    obtain ⟨k', v'⟩ := p
    by_cases h : k' = k <;> simp [dSet, h]

theorem dGet_isSome_iff_mem_keys (m : List (Txt × Txt)) (k : Txt) :
    (dGet m k).isSome = true ↔ k ∈ m.map Prod.fst := by
  induction m with
  | nil => simp [dGet]
  | cons p rest ih =>
    obtain ⟨k', v'⟩ := p
    by_cases h : k' = k
    · subst h; simp [dGet]
    · simp [dGet, h, ih, Ne.symm h]

theorem dGet_eq_some_of_mem {m : List (Txt × Txt)} {k v : Txt}
    (hnd : (m.map Prod.fst).Nodup) (hm : (k, v) ∈ m) : dGet m k = some v := by
  induction m with
  | nil => simp at hm
  | cons p rest ih =>
    obtain ⟨k', v'⟩ := p
    simp only [List.map_cons, List.nodup_cons] at hnd
    rcases List.mem_cons.mp hm with h | h
    · simp only [Prod.mk.injEq] at h
      obtain ⟨rfl, rfl⟩ := h
      simp [dGet]
    · have hk : k' ≠ k := by
        intro he
        subst he
        exact hnd.1 (List.mem_map.mpr ⟨_, h, rfl⟩)
      simp [dGet, hk, ih hnd.2 h]

theorem mem_of_dGet_eq_some {m : List (Txt × Txt)} {k v : Txt}
    (h : dGet m k = some v) : (k, v) ∈ m := by
  induction m with
  | nil => simp [dGet] at h
  | cons p rest ih =>
    obtain ⟨k', v'⟩ := p
    by_cases hk : k' = k
    · subst hk
      simp only [dGet, if_pos, Option.some.injEq] at h
      subst h
      exact List.mem_cons_self _ _
    · simp only [dGet, if_neg hk] at h
      exact List.mem_cons_of_mem _ (ih h)

theorem dGet_perm {m m' : List (Txt × Txt)} (hp : m.Perm m')
    (hnd : (m.map Prod.fst).Nodup) (k : Txt) : dGet m k = dGet m' k := by
  have hnd' : (m'.map Prod.fst).Nodup := ((hp.map Prod.fst).nodup_iff).mp hnd
  cases hm : dGet m k with
  | some v =>
    exact (dGet_eq_some_of_mem hnd' (hp.mem_iff.mp (mem_of_dGet_eq_some hm))).symm
  | none =>
    cases hm' : dGet m' k with
    | none => rfl
    | some v =>
      have : (k, v) ∈ m := hp.mem_iff.mpr (mem_of_dGet_eq_some hm')
      rw [dGet_eq_some_of_mem hnd this] at hm
      exact absurd hm (by simp)

theorem dGet_dSet_self (m : List (Txt × Txt)) (k v : Txt) :
    dGet (dSet m k v) k = some v := by
  induction m with
  | nil => simp [dSet, dGet]
  | cons p rest ih =>
    obtain ⟨k', v'⟩ := p
    by_cases h : k' = k <;> simp [dSet, dGet, h, ih]

theorem dGet_dSet_ne (m : List (Txt × Txt)) {k k' : Txt} (v : Txt) (h : k ≠ k') :
    dGet (dSet m k v) k' = dGet m k' := by
  induction m with
  | nil => simp [dSet, dGet, h]
  | cons p rest ih =>
    obtain ⟨k0, v0⟩ := p
    by_cases h0 : k0 = k
    · subst h0; simp [dSet, dGet, h]
    · simp [dSet, dGet, h0, ih]

/-! ### SST segments (`minikv/sst.py`) -/

/-- An SST segment: the descriptor (`path`, lazily loaded `min_key`/`max_key`)
together with the content of the file it points to. `onDisk` models
`os.path.exists(self.path)`. -/
structure SSTSeg where
  content : Txt
  onDisk : Bool
  minKey : Option Txt
  maxKey : Option Txt
deriving DecidableEq, Repr

/-- The line `{k}\t{v}` written for one entry (without the final newline). -/
def lineOf (p : Txt × Txt) : Txt := p.1 ++ '\t' :: p.2

/-- The text written by `write_from_memtable`: one `key<TAB>value<LF>` line
per sorted entry. -/
def sstText (items : List (Txt × Txt)) : Txt :=
  (items.map (fun p => lineOf p ++ ['\n'])).flatten

/-- Stable insertion of an entry into a key-sorted list (an entry moves past
another only when its key is strictly smaller, so earlier entries stay in
front of later ones with an equal key). -/
def insertSorted (p : Txt × Txt) : List (Txt × Txt) → List (Txt × Txt)
  | [] => [p]
  | q :: rest => if leStr p.1 q.1 then p :: q :: rest else q :: insertSorted p rest

/-- `sorted(memtable.items(), key=lambda kv: kv[0])`: the stable sort of the
snapshot's entries, ascending by key. -/
def sortItems (m : List (Txt × Txt)) : List (Txt × Txt) :=
  m.foldr insertSorted []

theorem insertSorted_perm (p : Txt × Txt) (l : List (Txt × Txt)) :
    (insertSorted p l).Perm (p :: l) := by
  induction l with
  | nil => exact List.Perm.refl _
  | cons q rest ih =>
    unfold insertSorted
    split_ifs
    · exact List.Perm.refl _
    · exact (ih.cons q).trans (List.Perm.swap p q rest)

theorem insertSorted_sorted (p : Txt × Txt) (l : List (Txt × Txt))
    (hs : l.Pairwise (fun a b => leStr a.1 b.1 = true)) :
    (insertSorted p l).Pairwise (fun a b => leStr a.1 b.1 = true) := by
  induction l with
  | nil => simp [insertSorted]
  | cons q rest ih =>
    unfold insertSorted
    rcases List.pairwise_cons.mp hs with ⟨hq, hrest⟩
    split_ifs with hle
    · refine List.pairwise_cons.mpr ⟨?_, hs⟩
      intro b hb
      rcases List.mem_cons.mp hb with rfl | hb
      · exact hle
      · exact leStr_trans hle (hq b hb)
    · refine List.pairwise_cons.mpr ⟨?_, ih hrest⟩
      intro b hb
      have hmem := (insertSorted_perm p rest).mem_iff.mp hb
      rcases List.mem_cons.mp hmem with rfl | hb'
      · rcases (Bool.or_eq_true _ _).mp (leStr_total b.1 q.1) with h | h
        · exact absurd h hle
        · exact h
      · exact hq b hb'

theorem sortItems_perm (m : List (Txt × Txt)) : (sortItems m).Perm m := by
  induction m with
  | nil => exact List.Perm.refl _
  | cons p rest ih =>
    exact (insertSorted_perm p (sortItems rest)).trans (ih.cons p)

theorem sortItems_sorted (m : List (Txt × Txt)) :
    (sortItems m).Pairwise (fun a b => leStr a.1 b.1 = true) := by
  induction m with
  | nil => exact List.Pairwise.nil
  | cons p rest ih => exact insertSorted_sorted p (sortItems rest) ih

/-- `SSTFile.write_from_memtable`: emits the sorted entries and records
`min_key`/`max_key` from the first and last written entry (left unset when
the snapshot is empty). -/
def writeFromMemtable (m : List (Txt × Txt)) : SSTSeg :=
  let items := sortItems m
  { content := sstText items
    onDisk := true
    minKey := (items.map Prod.fst).head?
    maxKey := (items.map Prod.fst).getLast? }

/-- One step of the `_ensure_min_max_loaded` scan: the key of a valid line
(non-empty line splitting into at least two tab-separated fields). -/
def validKey? (l : Txt) : Option Txt :=
  if l = [] then none else (splitFirstTab l).map Prod.fst

/-- The `_ensure_min_max_loaded` scan: the first valid key becomes `min_key`,
the last valid key becomes `max_key`. -/
def minMaxScan : List Txt → Option Txt → Option Txt → Option Txt × Option Txt
  | [], first, last => (first, last)
  | l :: ls, first, last =>
    match validKey? l with
    | none => minMaxScan ls first last
    | some k =>
      minMaxScan ls (match first with | none => some k | some f => some f) (some k)

/-- `SSTFile._ensure_min_max_loaded`. -/
def ensureMinMax (s : SSTSeg) : SSTSeg :=
  if s.minKey.isSome && s.maxKey.isSome then s
  else if !s.onDisk then s
  else
    let fl := minMaxScan (splitNl s.content) none none
    { s with minKey := fl.1, maxKey := fl.2 }

/-- The sequential scan of `SSTFile.search`: skip empty and malformed lines,
return the value of the first line whose key equals the query. -/
def scanLines : List Txt → Txt → Option Txt
  | [], _ => none
  | l :: ls, k =>
    if l = [] then scanLines ls k
    else
      match splitFirstTab l with
      | none => scanLines ls k
      | some (k', v) => if k' = k then some v else scanLines ls k

/-- `SSTFile.search`: missing file means absent; lazily load `min_key` /
`max_key`; prune when the query is outside `[min_key, max_key]`; otherwise
scan line by line. Returns the result together with the (possibly mutated)
descriptor. -/
def SSTSeg.search (s : SSTSeg) (k : Txt) : Option Txt × SSTSeg :=
  if !s.onDisk then (none, s)
  else
    let s' := ensureMinMax s
    match s'.minKey, s'.maxKey with
    | some mn, some mx =>
      if ltStr k mn || ltStr mx k then (none, s')
      else (scanLines (splitNl s'.content) k, s')
    | _, _ => (scanLines (splitNl s'.content) k, s')

/-- The pure result of `search` (its value component). -/
def searchVal (s : SSTSeg) (k : Txt) : Option Txt := (s.search k).1

/-- The entries an SST file actually stores: every non-empty line that splits
into two tab-separated fields, as a key-value pair. -/
def sstEntries (s : SSTSeg) : List (Txt × Txt) :=
  (splitNl s.content).filterMap fun l => if l = [] then none else splitFirstTab l

/-! ### WAL (`minikv/wal.py`) -/

/-- The line `PUT\t{key}\t{value}\n` appended by `WAL.append_put`. -/
def recPut (k v : Txt) : Txt := "PUT".data ++ '\t' :: (k ++ '\t' :: (v ++ ['\n']))

/-- The line `DEL\t{key}\n` appended by `WAL.append_delete`. -/
def recDel (k : Txt) : Txt := "DEL".data ++ '\t' :: (k ++ ['\n'])

/-- Processing one WAL line in `WAL.replay_into`: skip empty lines, split on
TAB, dispatch on the opcode; malformed lines are ignored. -/
def replayLine (m : List (Txt × Txt)) (l : Txt) : List (Txt × Txt) :=
  if l = [] then m
  else
    match splitTabs l with
    | [] => m
    | op :: rest =>
      if op = "PUT".data then
        match rest with
        | k :: v :: _ => dSet m k v
        | _ => m
      else if op = "DEL".data then
        match rest with
        | k :: _ => dSet m k TOMBSTONE
        | _ => m
      else m

/-- `WAL.replay_into` applied to an empty MemTable, as a function of the WAL
file's content. -/
def replayMem (content : Txt) : List (Txt × Txt) :=
  (splitNl content).foldl replayLine []

/-- A logical WAL record (`append_put` / `append_delete` call). -/
inductive WalOp where
  | putRec (k v : Txt)
  | delRec (k : Txt)
deriving DecidableEq

/-- The line appended to the WAL for one record. -/
def encodeOp : WalOp → Txt
  | .putRec k v => recPut k v
  | .delRec k => recDel k

/-- The WAL file content after appending a sequence of records to an
initially empty WAL. -/
def walText (ops : List WalOp) : Txt := (ops.map encodeOp).flatten

/-- The MemTable effect of one record (`PUT k v` assigns `v`, `DEL k` assigns
the tombstone). -/
def applyOp (m : List (Txt × Txt)) : WalOp → List (Txt × Txt)
  | .putRec k v => dSet m k v
  | .delRec k => dSet m k TOMBSTONE

/-- Well-formed text for a key or value: non-empty, no TAB, no LF (spec §3
and §6, "Character restrictions"). -/
@[reducible] def wfTxt (s : Txt) : Prop := s ≠ [] ∧ '\t' ∉ s ∧ '\n' ∉ s

/-- Well-formedness of a WAL record's fields. -/
@[reducible] def wfOp : WalOp → Prop
  | .putRec k v => wfTxt k ∧ wfTxt v
  | .delRec k => wfTxt k

instance instDecidableWfOp (op : WalOp) : Decidable (wfOp op) :=
  match op with
  | .putRec k v => inferInstanceAs (Decidable (wfTxt k ∧ wfTxt v))
  | .delRec k => inferInstanceAs (Decidable (wfTxt k))

/-! ### Configuration (`minikv/config.py`) and engine state (`minikv/engine.py`) -/

/-- WAL persistence strategies. -/
inductive WriteMode where
  | SYNC
  | BATCH
  | ADAPTIVE
deriving DecidableEq, Repr

/-- `MiniKVConfig` (the `data_dir` path is abstracted away: file locations
are fixed relative to it). -/
structure MiniKVConfig where
  writeMode : WriteMode
  batchSize : Nat
  batchIntervalMs : Nat
  memtableLimit : Nat
deriving DecidableEq, Repr

/-- The full engine state.

* `walContent` / `walExists` model the file `<data_dir>/wal.log` (which
  persists across `close`).
* `walHandle` models `self.wal is not None` with its file handle open (the
  engine couples the two: while open it holds an opened `WAL`, after `close`
  it holds `None`).
* `lastSyncTime` keeps the Python `0.0` sentinel for "never synced". -/
structure MiniKV where
  config : MiniKVConfig
  memtable : List (Txt × Txt)
  sstFiles : List SSTSeg
  walContent : Txt
  walExists : Bool
  walHandle : Bool
  isOpen : Bool
  pendingWalOps : Nat
  lastSyncTime : ℚ
  adaptiveBatchSize : Nat
  fsyncCount : Nat
deriving DecidableEq

/-- Errors raised by the engine (`RuntimeError("MiniKV is not open")` and
`RuntimeError("WAL is not initialized")`). -/
inductive KVErr where
  | notOpen
  | walMissing
deriving DecidableEq, Repr

/-- `MiniKV.__init__`: constructs the instance without opening any files. -/
def MiniKV.mkInit (cfg : MiniKVConfig) : MiniKV :=
  { config := cfg
    memtable := []
    sstFiles := []
    walContent := []
    walExists := false
    walHandle := false
    isOpen := false
    pendingWalOps := 0
    lastSyncTime := 0
    adaptiveBatchSize := cfg.batchSize
    fsyncCount := 0 }

/-- `MiniKV._update_adaptive_batch_size`. -/
def updateAdaptiveBatchSize (e : MiniKV) (qps : ℚ) : MiniKV :=
  if qps ≥ 10000 then { e with adaptiveBatchSize := e.config.batchSize * 4 }
  else if qps ≤ 1000 then { e with adaptiveBatchSize := e.config.batchSize }
  else e

/-- `MiniKV._sync_wal_now` (`now` models the `time.time()` call). -/
def syncWalNow (e : MiniKV) (now : ℚ) : MiniKV :=
  if !e.walHandle then e
  else
    let elapsed : Option ℚ :=
      if e.lastSyncTime = 0 then none else some (now - e.lastSyncTime)
    let pending := e.pendingWalOps
    let e1 := { e with fsyncCount := e.fsyncCount + 1
                       pendingWalOps := 0
                       lastSyncTime := now }
    match elapsed with
    | none => e1
    | some el =>
      if 0 < el ∧ 0 < pending then updateAdaptiveBatchSize e1 ((pending : ℚ) / el)
      else e1

/-- `MiniKV._maybe_sync_batch`. -/
def maybeSyncBatch (e : MiniKV) (now : ℚ) : MiniKV :=
  if !e.walHandle then e
  else if e.pendingWalOps ≥ e.config.batchSize then syncWalNow e now
  else if now - e.lastSyncTime > (e.config.batchIntervalMs : ℚ) / 1000 then
    syncWalNow e now
  else e

/-- `MiniKV._maybe_sync_adaptive`. -/
def maybeSyncAdaptive (e : MiniKV) (now : ℚ) : MiniKV :=
  if !e.walHandle then e
  else if e.pendingWalOps ≥ e.adaptiveBatchSize then syncWalNow e now
  else if now - e.lastSyncTime > (e.config.batchIntervalMs : ℚ) / 1000 then
    syncWalNow e now
  else e

/-- `MiniKV._after_wal_append`. -/
def afterWalAppend (e : MiniKV) (now : ℚ) : MiniKV :=
  match e.config.writeMode with
  | .SYNC => syncWalNow e now
  | .BATCH => maybeSyncBatch e now
  | .ADAPTIVE => maybeSyncAdaptive e now

/-- `MiniKV._flush_to_sst`: emit the MemTable as a new (newest) SST segment
and reset the MemTable; a no-op on an empty MemTable. -/
def flushToSst (e : MiniKV) : MiniKV :=
  if e.memtable = [] then e
  else { e with sstFiles := e.sstFiles ++ [writeFromMemtable e.memtable]
                memtable := [] }

/-- `MiniKV._maybe_flush_memtable`. -/
def maybeFlush (e : MiniKV) : MiniKV :=
  if e.memtable.length ≥ e.config.memtableLimit then flushToSst e else e

/-- `MiniKV.put`. -/
def MiniKV.put (e : MiniKV) (now : ℚ) (k v : Txt) : Except KVErr Unit × MiniKV :=
  if !e.isOpen then (.error .notOpen, e)
  else if !e.walHandle then (.error .walMissing, e)
  else
    let e1 := { e with walContent := e.walContent ++ recPut k v }
    let e2 := { e1 with pendingWalOps := e1.pendingWalOps + 1 }
    let e3 := afterWalAppend e2 now
    let e4 := { e3 with memtable := dSet e3.memtable k v }
    (.ok (), maybeFlush e4)

/-- `MiniKV.delete`. -/
def MiniKV.delete (e : MiniKV) (now : ℚ) (k : Txt) : Except KVErr Unit × MiniKV :=
  if !e.isOpen then (.error .notOpen, e)
  else if !e.walHandle then (.error .walMissing, e)
  else
    let e1 := { e with walContent := e.walContent ++ recDel k }
    let e2 := { e1 with pendingWalOps := e1.pendingWalOps + 1 }
    let e3 := afterWalAppend e2 now
    let e4 := { e3 with memtable := dSet e3.memtable k TOMBSTONE }
    (.ok (), maybeFlush e4)

/-- The `for sst in reversed(self.sst_files)` loop in `MiniKV.get`, on the
newest-first list: skip segments whose `search` is absent and stop at the
first hit; each visited descriptor may be mutated by the lazy metadata
load. -/
def getLoop (k : Txt) : List SSTSeg → Option Txt × List SSTSeg
  | [] => (none, [])
  | s :: rest =>
    let rs := s.search k
    match rs.1 with
    | none =>
      let rr := getLoop k rest
      (rr.1, rs.2 :: rr.2)
    | some v => (some v, rs.2 :: rest)

/-- `MiniKV.get`. -/
def MiniKV.get (e : MiniKV) (k : Txt) : Except KVErr (Option Txt) × MiniKV :=
  if !e.isOpen then (.error .notOpen, e)
  else
    match dGet e.memtable k with
    | some v => (.ok (if v = TOMBSTONE then none else some v), e)
    | none =>
      let rr := getLoop k e.sstFiles.reverse
      let e' := { e with sstFiles := rr.2.reverse }
      match rr.1 with
      | some v => (.ok (if v = TOMBSTONE then none else some v), e')
      | none => (.ok none, e')

/-- `MiniKV.close`: flush the MemTable, sync and close the WAL handle, mark
closed (the WAL file itself persists). -/
def MiniKV.close (e : MiniKV) (now : ℚ) : MiniKV :=
  if !e.isOpen then e
  else
    let e1 := flushToSst e
    let e2 := if e1.walHandle then { syncWalNow e1 now with walHandle := false }
              else e1
    { e2 with isOpen := false }

/-- `MiniKV.open`: idempotent; reset the MemTable, load the SST descriptors
found in the data directory (`dirSsts` stands for the result of the
`os.listdir` scan in `_load_sst_files`), open or create the WAL, and replay
it into the MemTable.  Sync-policy counters are left untouched. -/
def MiniKV.doOpen (e : MiniKV) (dirSsts : List SSTSeg) : MiniKV :=
  if e.isOpen then e
  else
    let content := if e.walExists then e.walContent else []
    { e with isOpen := true
             sstFiles := dirSsts
             walContent := content
             walExists := true
             walHandle := true
             memtable := replayMem content }

/-- A newly constructed engine opened over an empty data directory. -/
def openFresh (cfg : MiniKVConfig) : MiniKV := (MiniKV.mkInit cfg).doOpen []

/-! ### Compaction (`minikv/compaction.py`) -/

/-- One line of the compaction merge scan: keys already resolved (in
`merged` or `deleted`) are skipped; a tombstone value records a deletion,
anything else is retained. -/
def mergeLine (tomb : Txt) (acc : List (Txt × Txt) × List Txt) (l : Txt) :
    List (Txt × Txt) × List Txt :=
  if l = [] then acc
  else
    match splitFirstTab l with
    | none => acc
    | some (k, v) =>
      if (dGet acc.1 k).isSome = true ∨ k ∈ acc.2 then acc
      else if v = tomb then (acc.1, acc.2 ++ [k])
      else (dSet acc.1 k v, acc.2)

/-- The merge scan over one SST file (skipped when its file is missing). -/
def mergeSeg (tomb : Txt) (acc : List (Txt × Txt) × List Txt) (s : SSTSeg) :
    List (Txt × Txt) × List Txt :=
  if !s.onDisk then acc
  else (splitNl s.content).foldl (mergeLine tomb) acc

/-- `compaction._checkpoint_wal`: close the WAL, truncate the file to zero
length (creating it if missing), and reopen a fresh WAL on the same path. -/
def checkpointWal (e : MiniKV) : MiniKV :=
  if !e.walHandle then e
  else { e with walContent := [], walExists := true, walHandle := true }

/-- `compaction.compact_all` (invoked through `MiniKV.compact_all` with the
engine's tombstone sentinel). -/
def compactAll (e : MiniKV) : Except KVErr Unit × MiniKV :=
  if !e.isOpen then (.error .notOpen, e)
  else
    let e1 := flushToSst e
    if e1.sstFiles = [] then (.ok (), e1)
    else
      let md := e1.sstFiles.reverse.foldl (mergeSeg TOMBSTONE) ([], [])
      let e2 := { e1 with sstFiles := [] }
      if md.1 = [] then (.ok (), checkpointWal e2)
      else
        let e3 := { e2 with sstFiles := [writeFromMemtable md.1] }
        (.ok (), checkpointWal e3)

/-! ### Field-preservation lemmas for the sync-policy engine -/

theorem ua_config (e : MiniKV) (q : ℚ) :
    (updateAdaptiveBatchSize e q).config = e.config := by
  unfold updateAdaptiveBatchSize; split_ifs <;> rfl

theorem ua_memtable (e : MiniKV) (q : ℚ) :
    (updateAdaptiveBatchSize e q).memtable = e.memtable := by
  unfold updateAdaptiveBatchSize; split_ifs <;> rfl

theorem ua_sstFiles (e : MiniKV) (q : ℚ) :
    (updateAdaptiveBatchSize e q).sstFiles = e.sstFiles := by
  unfold updateAdaptiveBatchSize; split_ifs <;> rfl

theorem ua_walContent (e : MiniKV) (q : ℚ) :
    (updateAdaptiveBatchSize e q).walContent = e.walContent := by
  unfold updateAdaptiveBatchSize; split_ifs <;> rfl

theorem ua_walExists (e : MiniKV) (q : ℚ) :
    (updateAdaptiveBatchSize e q).walExists = e.walExists := by
  unfold updateAdaptiveBatchSize; split_ifs <;> rfl

theorem ua_walHandle (e : MiniKV) (q : ℚ) :
    (updateAdaptiveBatchSize e q).walHandle = e.walHandle := by
  unfold updateAdaptiveBatchSize; split_ifs <;> rfl

theorem ua_isOpen (e : MiniKV) (q : ℚ) :
    (updateAdaptiveBatchSize e q).isOpen = e.isOpen := by
  unfold updateAdaptiveBatchSize; split_ifs <;> rfl

theorem ua_pending (e : MiniKV) (q : ℚ) :
    (updateAdaptiveBatchSize e q).pendingWalOps = e.pendingWalOps := by
  unfold updateAdaptiveBatchSize; split_ifs <;> rfl

theorem ua_lastSync (e : MiniKV) (q : ℚ) :
    (updateAdaptiveBatchSize e q).lastSyncTime = e.lastSyncTime := by
  unfold updateAdaptiveBatchSize; split_ifs <;> rfl

theorem ua_fsync (e : MiniKV) (q : ℚ) :
    (updateAdaptiveBatchSize e q).fsyncCount = e.fsyncCount := by
  unfold updateAdaptiveBatchSize; split_ifs <;> rfl

theorem syncWalNow_proj (e : MiniKV) (now : ℚ) :
    (syncWalNow e now).config = e.config ∧
    (syncWalNow e now).memtable = e.memtable ∧
    (syncWalNow e now).sstFiles = e.sstFiles ∧
    (syncWalNow e now).walContent = e.walContent ∧
    (syncWalNow e now).walExists = e.walExists ∧
    (syncWalNow e now).walHandle = e.walHandle ∧
    (syncWalNow e now).isOpen = e.isOpen := by
  by_cases hw : e.walHandle
  · by_cases h0 : e.lastSyncTime = 0
    · simp [syncWalNow, hw, h0]
    · by_cases hc : e.lastSyncTime < now ∧ 0 < e.pendingWalOps
      · simp [syncWalNow, hw, h0, hc, sub_pos, ua_config, ua_memtable, ua_sstFiles,
          ua_walContent, ua_walExists, ua_walHandle, ua_isOpen]
      · simp [syncWalNow, hw, h0, hc, sub_pos]
  · simp [syncWalNow, hw]

theorem syncWalNow_fsync (e : MiniKV) (now : ℚ) :
    (syncWalNow e now).fsyncCount =
      if e.walHandle then e.fsyncCount + 1 else e.fsyncCount := by
  by_cases hw : e.walHandle
  · by_cases h0 : e.lastSyncTime = 0
    · simp [syncWalNow, hw, h0]
    · by_cases hc : e.lastSyncTime < now ∧ 0 < e.pendingWalOps
      · simp [syncWalNow, hw, h0, hc, sub_pos, ua_fsync]
      · simp [syncWalNow, hw, h0, hc, sub_pos]
  · simp [syncWalNow, hw]

theorem maybeSyncBatch_cases (e : MiniKV) (now : ℚ) :
    maybeSyncBatch e now = syncWalNow e now ∨ maybeSyncBatch e now = e := by
  unfold maybeSyncBatch
  split_ifs <;> simp

theorem maybeSyncAdaptive_cases (e : MiniKV) (now : ℚ) :
    maybeSyncAdaptive e now = syncWalNow e now ∨ maybeSyncAdaptive e now = e := by
  unfold maybeSyncAdaptive
  split_ifs <;> simp

theorem afterWalAppend_cases (e : MiniKV) (now : ℚ) :
    afterWalAppend e now = syncWalNow e now ∨ afterWalAppend e now = e := by
  unfold afterWalAppend
  cases e.config.writeMode with
  | SYNC => left; rfl
  | BATCH => exact maybeSyncBatch_cases e now
  | ADAPTIVE => exact maybeSyncAdaptive_cases e now

theorem afterWalAppend_proj (e : MiniKV) (now : ℚ) :
    (afterWalAppend e now).config = e.config ∧
    (afterWalAppend e now).memtable = e.memtable ∧
    (afterWalAppend e now).sstFiles = e.sstFiles ∧
    (afterWalAppend e now).walContent = e.walContent ∧
    (afterWalAppend e now).walExists = e.walExists ∧
    (afterWalAppend e now).walHandle = e.walHandle ∧
    (afterWalAppend e now).isOpen = e.isOpen := by
  rcases afterWalAppend_cases e now with h | h
  · rw [h]; exact syncWalNow_proj e now
  · rw [h]; exact ⟨rfl, rfl, rfl, rfl, rfl, rfl, rfl⟩

theorem afterWalAppend_fsync_le (e : MiniKV) (now : ℚ) :
    e.fsyncCount ≤ (afterWalAppend e now).fsyncCount ∧
    (afterWalAppend e now).fsyncCount ≤ e.fsyncCount + 1 := by
  rcases afterWalAppend_cases e now with h | h
  · rw [h, syncWalNow_fsync]
    split_ifs <;> omega
  · rw [h]; omega

theorem afterWalAppend_fsync_SYNC (e : MiniKV) (now : ℚ)
    (hm : e.config.writeMode = .SYNC) (hw : e.walHandle = true) :
    (afterWalAppend e now).fsyncCount = e.fsyncCount + 1 := by
  unfold afterWalAppend
  rw [hm]
  rw [syncWalNow_fsync, hw]
  rfl

theorem flushToSst_proj (e : MiniKV) :
    (flushToSst e).config = e.config ∧
    (flushToSst e).walContent = e.walContent ∧
    (flushToSst e).walExists = e.walExists ∧
    (flushToSst e).walHandle = e.walHandle ∧
    (flushToSst e).isOpen = e.isOpen ∧
    (flushToSst e).pendingWalOps = e.pendingWalOps ∧
    (flushToSst e).lastSyncTime = e.lastSyncTime ∧
    (flushToSst e).adaptiveBatchSize = e.adaptiveBatchSize ∧
    (flushToSst e).fsyncCount = e.fsyncCount := by
  unfold flushToSst
  split_ifs <;> exact ⟨rfl, rfl, rfl, rfl, rfl, rfl, rfl, rfl, rfl⟩

theorem maybeFlush_cases (e : MiniKV) :
    maybeFlush e = flushToSst e ∨ maybeFlush e = e := by
  unfold maybeFlush
  split_ifs <;> simp

theorem maybeFlush_proj (e : MiniKV) :
    (maybeFlush e).config = e.config ∧
    (maybeFlush e).walContent = e.walContent ∧
    (maybeFlush e).walExists = e.walExists ∧
    (maybeFlush e).walHandle = e.walHandle ∧
    (maybeFlush e).isOpen = e.isOpen ∧
    (maybeFlush e).pendingWalOps = e.pendingWalOps ∧
    (maybeFlush e).lastSyncTime = e.lastSyncTime ∧
    (maybeFlush e).adaptiveBatchSize = e.adaptiveBatchSize ∧
    (maybeFlush e).fsyncCount = e.fsyncCount := by
  rcases maybeFlush_cases e with h | h
  · rw [h]; exact flushToSst_proj e
  · rw [h]; exact ⟨rfl, rfl, rfl, rfl, rfl, rfl, rfl, rfl, rfl⟩

/-! ### Claim C9 -/

/-- Claim C9: every data operation (`put`, `get`, `delete`, `compact_all`)
invoked on an engine that is not open fails with the NotOpen error and
leaves all engine state unchanged. -/
theorem C9_not_open_rejected (e : MiniKV) (now : ℚ) (k v : Txt)
    (h : e.isOpen = false) :
    e.put now k v = (.error .notOpen, e) ∧
    e.get k = (.error .notOpen, e) ∧
    e.delete now k = (.error .notOpen, e) ∧
    compactAll e = (.error .notOpen, e) := by
  refine ⟨?_, ?_, ?_, ?_⟩ <;>
    simp [MiniKV.put, MiniKV.get, MiniKV.delete, compactAll, h]

/-- Witness for C9 on a concrete freshly constructed (never opened) engine. -/
theorem C9_witness :
    (MiniKV.mkInit ⟨.SYNC, 10, 5, 1000⟩).put 0 "a".data "1".data
        = (.error .notOpen, MiniKV.mkInit ⟨.SYNC, 10, 5, 1000⟩) ∧
    (MiniKV.mkInit ⟨.SYNC, 10, 5, 1000⟩).get "a".data
        = (.error .notOpen, MiniKV.mkInit ⟨.SYNC, 10, 5, 1000⟩) := by
  have h := C9_not_open_rejected (MiniKV.mkInit ⟨.SYNC, 10, 5, 1000⟩) 0
    "a".data "1".data rfl
  exact ⟨h.1, h.2.1⟩

/-! ### Claim C6 -/

/-- Claim C6: on every sync, when the elapsed time since the previous sync is
defined (`last_sync_time ≠ 0`), positive, and the pre-sync pending-ops count
is positive, the adaptive batch size becomes `4 × batch_size` when
`qps = pending / elapsed ≥ 10000`, reverts to `batch_size` when
`qps ≤ 1000`, and is unchanged otherwise; when any part of the guard fails
the adaptive batch size is unchanged. -/
theorem C6_adaptive_batch_update (e : MiniKV) (now : ℚ) (hw : e.walHandle = true) :
    (e.lastSyncTime ≠ 0 → 0 < now - e.lastSyncTime → 0 < e.pendingWalOps →
      (syncWalNow e now).adaptiveBatchSize =
        (if (e.pendingWalOps : ℚ) / (now - e.lastSyncTime) ≥ 10000 then
          4 * e.config.batchSize
        else if (e.pendingWalOps : ℚ) / (now - e.lastSyncTime) ≤ 1000 then
          e.config.batchSize
        else e.adaptiveBatchSize)) ∧
    ((e.lastSyncTime = 0 ∨ ¬ 0 < now - e.lastSyncTime ∨ ¬ 0 < e.pendingWalOps) →
      (syncWalNow e now).adaptiveBatchSize = e.adaptiveBatchSize) := by
  constructor
  · intro h0 hel hp
    have hc : e.lastSyncTime < now ∧ 0 < e.pendingWalOps := ⟨sub_pos.mp hel, hp⟩
    simp only [syncWalNow, hw, Bool.not_true, Bool.false_eq_true, if_false,
      if_neg h0, hc, and_self, if_pos, sub_pos, ite_true]
    unfold updateAdaptiveBatchSize
    split_ifs with h1 h2 <;> simp [Nat.mul_comm]
  · intro hg
    by_cases h0 : e.lastSyncTime = 0
    · simp [syncWalNow, hw, h0]
    · rcases hg with hg | hg | hg
      · exact absurd hg h0
      · have hc : ¬(e.lastSyncTime < now ∧ 0 < e.pendingWalOps) := by
          rw [← sub_pos]; tauto
        simp [syncWalNow, hw, h0, hc, sub_pos]
      · have hc : ¬(e.lastSyncTime < now ∧ 0 < e.pendingWalOps) := by tauto
        simp [syncWalNow, hw, h0, hc, sub_pos]

/-- Witness for C6: a concrete high-throughput sync (20000 pending ops in one
time unit) grows the adaptive batch size to `4 × batch_size = 40`, and a
concrete first-ever sync (sentinel `last_sync_time = 0`) leaves it
unchanged. -/
theorem C6_witness :
    (syncWalNow
      { config := ⟨.ADAPTIVE, 10, 5, 1000⟩, memtable := [], sstFiles := [],
        walContent := [], walExists := true, walHandle := true, isOpen := true,
        pendingWalOps := 20000, lastSyncTime := 1, adaptiveBatchSize := 10,
        fsyncCount := 3 } 2).adaptiveBatchSize = 40 ∧
    (syncWalNow
      { config := ⟨.ADAPTIVE, 10, 5, 1000⟩, memtable := [], sstFiles := [],
        walContent := [], walExists := true, walHandle := true, isOpen := true,
        pendingWalOps := 20000, lastSyncTime := 0, adaptiveBatchSize := 10,
        fsyncCount := 3 } 2).adaptiveBatchSize = 10 := by
  constructor
  · have h := (C6_adaptive_batch_update
      { config := ⟨.ADAPTIVE, 10, 5, 1000⟩, memtable := [], sstFiles := [],
        walContent := [], walExists := true, walHandle := true, isOpen := true,
        pendingWalOps := 20000, lastSyncTime := 1, adaptiveBatchSize := 10,
        fsyncCount := 3 } 2 rfl).1 (by norm_num) (by norm_num) (by norm_num)
    rw [h]
    norm_num
  · have h := (C6_adaptive_batch_update
      { config := ⟨.ADAPTIVE, 10, 5, 1000⟩, memtable := [], sstFiles := [],
        walContent := [], walExists := true, walHandle := true, isOpen := true,
        pendingWalOps := 20000, lastSyncTime := 0, adaptiveBatchSize := 10,
        fsyncCount := 3 } 2 rfl).2 (Or.inl rfl)
    exact h

/-! ### Shape lemmas for the engine operations -/

theorem put_eq (e : MiniKV) (now : ℚ) (k v : Txt)
    (ho : e.isOpen = true) (hw : e.walHandle = true) :
    e.put now k v =
      (.ok (), maybeFlush
        { afterWalAppend
            { e with walContent := e.walContent ++ recPut k v
                     pendingWalOps := e.pendingWalOps + 1 } now with
          memtable := dSet (afterWalAppend
            { e with walContent := e.walContent ++ recPut k v
                     pendingWalOps := e.pendingWalOps + 1 } now).memtable k v }) := by
  unfold MiniKV.put
  rw [ho, hw]
  rfl

theorem delete_eq (e : MiniKV) (now : ℚ) (k : Txt)
    (ho : e.isOpen = true) (hw : e.walHandle = true) :
    e.delete now k =
      (.ok (), maybeFlush
        { afterWalAppend
            { e with walContent := e.walContent ++ recDel k
                     pendingWalOps := e.pendingWalOps + 1 } now with
          memtable := dSet (afterWalAppend
            { e with walContent := e.walContent ++ recDel k
                     pendingWalOps := e.pendingWalOps + 1 } now).memtable k TOMBSTONE }) := by
  unfold MiniKV.delete
  rw [ho, hw]
  rfl

theorem put_open_facts (e : MiniKV) (now : ℚ) (k v : Txt)
    (ho : e.isOpen = true) (hw : e.walHandle = true) :
    ((e.put now k v).2).isOpen = true ∧
    ((e.put now k v).2).walHandle = true ∧
    ((e.put now k v).2).config = e.config ∧
    e.fsyncCount ≤ ((e.put now k v).2).fsyncCount ∧
    ((e.put now k v).2).fsyncCount ≤ e.fsyncCount + 1 ∧
    (e.config.writeMode = .SYNC →
      ((e.put now k v).2).fsyncCount = e.fsyncCount + 1) := by
  rw [put_eq e now k v ho hw]
  dsimp only
  obtain ⟨ha1, ha2, ha3, ha4, ha5, ha6, ha7⟩ := afterWalAppend_proj
    { e with walContent := e.walContent ++ recPut k v
             pendingWalOps := e.pendingWalOps + 1 } now
  obtain ⟨hb1, hb2⟩ := afterWalAppend_fsync_le
    { e with walContent := e.walContent ++ recPut k v
             pendingWalOps := e.pendingWalOps + 1 } now
  obtain ⟨hm1, hm2, hm3, hm4, hm5, hm6, hm7, hm8, hm9⟩ := maybeFlush_proj
    { afterWalAppend
        { e with walContent := e.walContent ++ recPut k v
                 pendingWalOps := e.pendingWalOps + 1 } now with
      memtable := dSet (afterWalAppend
        { e with walContent := e.walContent ++ recPut k v
                 pendingWalOps := e.pendingWalOps + 1 } now).memtable k v }
  refine ⟨?_, ?_, ?_, ?_, ?_, ?_⟩
  · rw [hm5]; exact ha7.trans ho
  · rw [hm4]; exact ha6.trans hw
  · rw [hm1]; exact ha1
  · rw [hm9]; exact hb1
  · rw [hm9]; exact hb2
  · intro hs
    rw [hm9]
    exact afterWalAppend_fsync_SYNC _ now hs hw

theorem delete_open_facts (e : MiniKV) (now : ℚ) (k : Txt)
    (ho : e.isOpen = true) (hw : e.walHandle = true) :
    ((e.delete now k).2).isOpen = true ∧
    ((e.delete now k).2).walHandle = true ∧
    ((e.delete now k).2).config = e.config ∧
    e.fsyncCount ≤ ((e.delete now k).2).fsyncCount ∧
    ((e.delete now k).2).fsyncCount ≤ e.fsyncCount + 1 ∧
    (e.config.writeMode = .SYNC →
      ((e.delete now k).2).fsyncCount = e.fsyncCount + 1) := by
  rw [delete_eq e now k ho hw]
  dsimp only
  obtain ⟨ha1, ha2, ha3, ha4, ha5, ha6, ha7⟩ := afterWalAppend_proj
    { e with walContent := e.walContent ++ recDel k
             pendingWalOps := e.pendingWalOps + 1 } now
  obtain ⟨hb1, hb2⟩ := afterWalAppend_fsync_le
    { e with walContent := e.walContent ++ recDel k
             pendingWalOps := e.pendingWalOps + 1 } now
  obtain ⟨hm1, hm2, hm3, hm4, hm5, hm6, hm7, hm8, hm9⟩ := maybeFlush_proj
    { afterWalAppend
        { e with walContent := e.walContent ++ recDel k
                 pendingWalOps := e.pendingWalOps + 1 } now with
      memtable := dSet (afterWalAppend
        { e with walContent := e.walContent ++ recDel k
                 pendingWalOps := e.pendingWalOps + 1 } now).memtable k TOMBSTONE }
  refine ⟨?_, ?_, ?_, ?_, ?_, ?_⟩
  · rw [hm5]; exact ha7.trans ho
  · rw [hm4]; exact ha6.trans hw
  · rw [hm1]; exact ha1
  · rw [hm9]; exact hb1
  · rw [hm9]; exact hb2
  · intro hs
    rw [hm9]
    exact afterWalAppend_fsync_SYNC _ now hs hw

theorem get_proj (e : MiniKV) (k : Txt) :
    ((e.get k).2).config = e.config ∧
    ((e.get k).2).memtable = e.memtable ∧
    ((e.get k).2).walContent = e.walContent ∧
    ((e.get k).2).walExists = e.walExists ∧
    ((e.get k).2).walHandle = e.walHandle ∧
    ((e.get k).2).isOpen = e.isOpen ∧
    ((e.get k).2).pendingWalOps = e.pendingWalOps ∧
    ((e.get k).2).lastSyncTime = e.lastSyncTime ∧
    ((e.get k).2).adaptiveBatchSize = e.adaptiveBatchSize ∧
    ((e.get k).2).fsyncCount = e.fsyncCount ∧
    (((e.get k).2).sstFiles = [] ↔ e.sstFiles = []) := by
  unfold MiniKV.get
  split_ifs with h1
  · exact ⟨rfl, rfl, rfl, rfl, rfl, rfl, rfl, rfl, rfl, rfl, Iff.rfl⟩
  · have hlen : ∀ l, ((getLoop k l).2).length = l.length := by
      intro l
      induction l with
      | nil => rfl
      | cons s rest ih =>
        unfold getLoop
        cases hr : (s.search k).1 <;> simp [hr, ih]
    cases hdg : dGet e.memtable k with
    | some v => exact ⟨rfl, rfl, rfl, rfl, rfl, rfl, rfl, rfl, rfl, rfl, Iff.rfl⟩
    | none =>
      dsimp only
      cases hr : (getLoop k e.sstFiles.reverse).1 with
      | none =>
        refine ⟨rfl, rfl, rfl, rfl, rfl, rfl, rfl, rfl, rfl, rfl, ?_⟩
        constructor
        · intro hh
          have hlh := congrArg List.length hh
          simpa [hlen] using hlh
        · intro hh
          simp [hh, getLoop]
      | some v =>
        refine ⟨rfl, rfl, rfl, rfl, rfl, rfl, rfl, rfl, rfl, rfl, ?_⟩
        constructor
        · intro hh
          have hlh := congrArg List.length hh
          simpa [hlen] using hlh
        · intro hh
          simp [hh, getLoop]

theorem checkpointWal_proj (e : MiniKV) :
    (checkpointWal e).config = e.config ∧
    (checkpointWal e).memtable = e.memtable ∧
    (checkpointWal e).sstFiles = e.sstFiles ∧
    (checkpointWal e).isOpen = e.isOpen ∧
    (checkpointWal e).pendingWalOps = e.pendingWalOps ∧
    (checkpointWal e).lastSyncTime = e.lastSyncTime ∧
    (checkpointWal e).adaptiveBatchSize = e.adaptiveBatchSize ∧
    (checkpointWal e).fsyncCount = e.fsyncCount := by
  unfold checkpointWal
  split_ifs <;> exact ⟨rfl, rfl, rfl, rfl, rfl, rfl, rfl, rfl⟩

theorem compactAll_shape (e : MiniKV) (ho : e.isOpen = true) :
    (compactAll e).1 = .ok () ∧
    (((compactAll e).2 = flushToSst e ∧ (flushToSst e).sstFiles = []) ∨
     ((flushToSst e).sstFiles ≠ [] ∧
      (let md := (flushToSst e).sstFiles.reverse.foldl (mergeSeg TOMBSTONE) ([], [])
       (md.1 = [] ∧
          (compactAll e).2 = checkpointWal { flushToSst e with sstFiles := [] }) ∨
       (md.1 ≠ [] ∧
          (compactAll e).2 =
            checkpointWal { flushToSst e with
              sstFiles := [writeFromMemtable md.1] })))) := by
  unfold compactAll
  simp only [ho, Bool.not_true, Bool.false_eq_true, if_false]
  by_cases h1 : (flushToSst e).sstFiles = []
  · rw [if_pos h1]
    exact ⟨rfl, Or.inl ⟨rfl, h1⟩⟩
  · rw [if_neg h1]
    by_cases h2 :
        ((flushToSst e).sstFiles.reverse.foldl (mergeSeg TOMBSTONE) ([], [])).1 = []
    · rw [if_pos h2]
      exact ⟨rfl, Or.inr ⟨h1, Or.inl ⟨h2, rfl⟩⟩⟩
    · rw [if_neg h2]
      exact ⟨rfl, Or.inr ⟨h1, Or.inr ⟨h2, rfl⟩⟩⟩

theorem compactAll_fsync (e : MiniKV) : ((compactAll e).2).fsyncCount = e.fsyncCount := by
  by_cases ho : e.isOpen = true
  · rcases (compactAll_shape e ho).2 with ⟨h, _⟩ | ⟨_, h⟩
    · rw [h]; exact (flushToSst_proj e).2.2.2.2.2.2.2.2
    · rcases h with ⟨_, h⟩ | ⟨_, h⟩ <;>
      · rw [h]
        rw [(checkpointWal_proj _).2.2.2.2.2.2.2]
        exact (flushToSst_proj e).2.2.2.2.2.2.2.2
  · have ho' : e.isOpen = false := by
      cases hh : e.isOpen
      · rfl
      · exact absurd hh ho
    unfold compactAll
    rw [ho']
    rfl

theorem close_fsync_eq (e : MiniKV) (now : ℚ)
    (ho : e.isOpen = true) (hw : e.walHandle = true) :
    (e.close now).fsyncCount = e.fsyncCount + 1 := by
  unfold MiniKV.close
  rw [ho]
  simp only [Bool.not_true, Bool.false_eq_true, if_false]
  have hfw : (flushToSst e).walHandle = true := (flushToSst_proj e).2.2.2.1.trans hw
  rw [if_pos hfw]
  show (syncWalNow (flushToSst e) now).fsyncCount = e.fsyncCount + 1
  rw [syncWalNow_fsync, hfw]
  rw [if_pos rfl, (flushToSst_proj e).2.2.2.2.2.2.2.2]

theorem close_fsync_le (e : MiniKV) (now : ℚ) :
    e.fsyncCount ≤ (e.close now).fsyncCount := by
  unfold MiniKV.close
  split_ifs with h1
  · exact le_refl _
  · dsimp only
    have hfs : (flushToSst e).fsyncCount = e.fsyncCount :=
      (flushToSst_proj e).2.2.2.2.2.2.2.2
    by_cases hfw : (flushToSst e).walHandle = true
    · rw [if_pos hfw]
      show e.fsyncCount ≤ (syncWalNow (flushToSst e) now).fsyncCount
      rw [syncWalNow_fsync, hfw, if_pos rfl, hfs]
      omega
    · rw [if_neg hfw]
      show e.fsyncCount ≤ (flushToSst e).fsyncCount
      omega

theorem doOpen_proj (e : MiniKV) (dirSsts : List SSTSeg) :
    (e.doOpen dirSsts).config = e.config ∧
    (e.doOpen dirSsts).pendingWalOps = e.pendingWalOps ∧
    (e.doOpen dirSsts).lastSyncTime = e.lastSyncTime ∧
    (e.doOpen dirSsts).adaptiveBatchSize = e.adaptiveBatchSize ∧
    (e.doOpen dirSsts).fsyncCount = e.fsyncCount := by
  unfold MiniKV.doOpen
  split_ifs <;> exact ⟨rfl, rfl, rfl, rfl, rfl⟩

theorem put_fsync_le (e : MiniKV) (now : ℚ) (k v : Txt) :
    e.fsyncCount ≤ ((e.put now k v).2).fsyncCount := by
  by_cases ho : e.isOpen = true
  · by_cases hw : e.walHandle = true
    · exact (put_open_facts e now k v ho hw).2.2.2.1
    · unfold MiniKV.put
      rw [ho]
      have hw' : e.walHandle = false := by
        cases hh : e.walHandle
        · rfl
        · exact absurd hh hw
      rw [hw']
      exact le_refl _
  · have ho' : e.isOpen = false := by
      cases hh : e.isOpen
      · rfl
      · exact absurd hh ho
    unfold MiniKV.put
    rw [ho']
    exact le_refl _

theorem delete_fsync_le (e : MiniKV) (now : ℚ) (k : Txt) :
    e.fsyncCount ≤ ((e.delete now k).2).fsyncCount := by
  by_cases ho : e.isOpen = true
  · by_cases hw : e.walHandle = true
    · exact (delete_open_facts e now k ho hw).2.2.2.1
    · unfold MiniKV.delete
      rw [ho]
      have hw' : e.walHandle = false := by
        cases hh : e.walHandle
        · rfl
        · exact absurd hh hw
      rw [hw']
      exact le_refl _
  · have ho' : e.isOpen = false := by
      cases hh : e.isOpen
      · rfl
      · exact absurd hh ho
    unfold MiniKV.delete
    rw [ho']
    exact le_refl _

/-! ### Claim C10 -/

/-- Claim C10: `fsync_count` is never decreased by any operation, and
`open()` does not reset it: across repeated `close()`/`open()` cycles the
counter accumulates every WAL sync performed since construction, including
the one performed by `close` (which adds exactly one when the engine is open
with a live WAL). -/
theorem C10_fsync_monotone (e : MiniKV) (now : ℚ) (k v : Txt)
    (dirSsts : List SSTSeg) :
    (e.doOpen dirSsts).fsyncCount = e.fsyncCount ∧
    e.fsyncCount ≤ ((e.put now k v).2).fsyncCount ∧
    e.fsyncCount ≤ ((e.delete now k).2).fsyncCount ∧
    ((e.get k).2).fsyncCount = e.fsyncCount ∧
    ((compactAll e).2).fsyncCount = e.fsyncCount ∧
    e.fsyncCount ≤ (e.close now).fsyncCount ∧
    (e.isOpen = true → e.walHandle = true →
      (e.close now).fsyncCount = e.fsyncCount + 1) :=
  ⟨(doOpen_proj e dirSsts).2.2.2.2,
   put_fsync_le e now k v,
   delete_fsync_le e now k,
   (get_proj e k).2.2.2.2.2.2.2.2.2.1,
   compactAll_fsync e,
   close_fsync_le e now,
   fun ho hw => close_fsync_eq e now ho hw⟩

/-- Witness for C10: a concrete `put; close; open; close` run on a fresh
SYNC engine accumulates the counter (1 after the put, 2 after the first
close, still 2 after reopening, 3 after the second close). -/
theorem C10_witness :
    (((openFresh ⟨.SYNC, 10, 5, 1000⟩).put 1 "a".data "1".data).2.close 2).fsyncCount
      = 2 ∧
    ((((openFresh ⟨.SYNC, 10, 5, 1000⟩).put 1 "a".data "1".data).2.close 2).doOpen
        []).fsyncCount = 2 := by
  have h1 := (C10_fsync_monotone
    ((openFresh ⟨.SYNC, 10, 5, 1000⟩).put 1 "a".data "1".data).2 2
    "a".data "1".data []).2.2.2.2.2.2 (by decide) (by decide)
  have h2 := (C10_fsync_monotone
    (((openFresh ⟨.SYNC, 10, 5, 1000⟩).put 1 "a".data "1".data).2.close 2) 3
    "a".data "1".data []).1
  refine ⟨?_, ?_⟩
  · rw [h1]; decide
  · rw [h2, h1]; decide

/-! ### Claim C5 -/

/-- A write request issued to the engine (the rational is the `time.time()`
value observed during the call). -/
inductive WriteReq where
  | putReq (k v : Txt) (now : ℚ)
  | delReq (k : Txt) (now : ℚ)

/-- Execute one write request. -/
def runReq (e : MiniKV) : WriteReq → MiniKV
  | .putReq k v now => (e.put now k v).2
  | .delReq k now => (e.delete now k).2

/-- Execute a sequence of write requests. -/
def runReqs (e : MiniKV) (ops : List WriteReq) : MiniKV := ops.foldl runReq e

theorem runReq_open_facts (e : MiniKV) (r : WriteReq)
    (ho : e.isOpen = true) (hw : e.walHandle = true) :
    (runReq e r).isOpen = true ∧
    (runReq e r).walHandle = true ∧
    (runReq e r).config = e.config ∧
    e.fsyncCount ≤ (runReq e r).fsyncCount ∧
    (runReq e r).fsyncCount ≤ e.fsyncCount + 1 ∧
    (e.config.writeMode = .SYNC → (runReq e r).fsyncCount = e.fsyncCount + 1) := by
  cases r with
  | putReq k v now => exact put_open_facts e now k v ho hw
  | delReq k now => exact delete_open_facts e now k ho hw

theorem runReqs_facts (ops : List WriteReq) (e : MiniKV)
    (ho : e.isOpen = true) (hw : e.walHandle = true) :
    (runReqs e ops).isOpen = true ∧
    (runReqs e ops).walHandle = true ∧
    (runReqs e ops).fsyncCount ≤ e.fsyncCount + ops.length ∧
    (e.config.writeMode = .SYNC →
      (runReqs e ops).fsyncCount = e.fsyncCount + ops.length) := by
  induction ops generalizing e with
  | nil =>
    exact ⟨ho, hw, by simp [runReqs], fun _ => by simp [runReqs]⟩
  | cons r rs ih =>
    obtain ⟨h1, h2, h3, h4, h5, h6⟩ := runReq_open_facts e r ho hw
    have hstep : runReqs e (r :: rs) = runReqs (runReq e r) rs := rfl
    obtain ⟨g1, g2, g3, g4⟩ := ih (runReq e r) h1 h2
    refine ⟨hstep ▸ g1, hstep ▸ g2, ?_, ?_⟩
    · rw [hstep]
      calc (runReqs (runReq e r) rs).fsyncCount
          ≤ (runReq e r).fsyncCount + rs.length := g3
        _ ≤ e.fsyncCount + 1 + rs.length := by omega
        _ = e.fsyncCount + (r :: rs).length := by simp; omega
    · intro hs
      have hs' : (runReq e r).config.writeMode = .SYNC := by rw [h3]; exact hs
      rw [hstep, g4 hs', h6 hs]
      simp
      omega

/-- Claim C5: from a newly constructed engine opened in SYNC mode,
`fsync_count` after N put/delete operations (before any close or
compact_all) equals N; in BATCH or ADAPTIVE mode it is at most N, and after
`close` it is at least 1 whenever at least one write occurred. -/
theorem C5_fsync_counts (cfg : MiniKVConfig) (ops : List WriteReq) :
    (cfg.writeMode = .SYNC →
      (runReqs (openFresh cfg) ops).fsyncCount = ops.length) ∧
    ((cfg.writeMode = .BATCH ∨ cfg.writeMode = .ADAPTIVE) →
      (runReqs (openFresh cfg) ops).fsyncCount ≤ ops.length ∧
      (1 ≤ ops.length → ∀ now : ℚ,
        1 ≤ ((runReqs (openFresh cfg) ops).close now).fsyncCount)) := by
  have h0 : (openFresh cfg).isOpen = true := rfl
  have hw0 : (openFresh cfg).walHandle = true := rfl
  have hf0 : (openFresh cfg).fsyncCount = 0 := rfl
  have hc0 : (openFresh cfg).config = cfg := rfl
  obtain ⟨g1, g2, g3, g4⟩ := runReqs_facts ops (openFresh cfg) h0 hw0
  constructor
  · intro hs
    have := g4 (by rw [hc0]; exact hs)
    rw [this, hf0]
    omega
  · intro _
    refine ⟨by rw [hf0] at g3; omega, ?_⟩
    intro _ now
    have := close_fsync_eq (runReqs (openFresh cfg) ops) now g1 g2
    omega

/-- Witness for C5: two concrete writes in SYNC mode give `fsync_count = 2`;
in BATCH mode (batch size 100, long interval, times within the interval)
the count stays at most 2, and closing yields at least one sync. -/
theorem C5_witness :
    (runReqs (openFresh ⟨.SYNC, 10, 5, 1000⟩)
      [.putReq "a".data "1".data 1, .delReq "a".data 1]).fsyncCount = 2 ∧
    (runReqs (openFresh ⟨.BATCH, 100, 10000, 1000⟩)
      [.putReq "a".data "1".data 1, .delReq "a".data 1]).fsyncCount ≤ 2 ∧
    1 ≤ ((runReqs (openFresh ⟨.BATCH, 100, 10000, 1000⟩)
      [.putReq "a".data "1".data 1, .delReq "a".data 1]).close 2).fsyncCount := by
  have h1 := (C5_fsync_counts ⟨.SYNC, 10, 5, 1000⟩
    [.putReq "a".data "1".data 1, .delReq "a".data 1]).1 rfl
  have h2 := (C5_fsync_counts ⟨.BATCH, 100, 10000, 1000⟩
    [.putReq "a".data "1".data 1, .delReq "a".data 1]).2 (Or.inl rfl)
  exact ⟨h1, h2.1, h2.2 (by decide) 2⟩

/-! ### Claim C1 -/

theorem getLoop_fst (k : Txt) (l : List SSTSeg) :
    (getLoop k l).1 = l.findSome? (fun s => searchVal s k) := by
  induction l with
  | nil => rfl
  | cons s rest ih =>
    unfold getLoop
    cases hr : (s.search k).1 with
    | none =>
      simp only [hr, List.findSome?_cons, searchVal]
      exact ih
    | some v =>
      simp only [hr, List.findSome?_cons, searchVal]

/-- Claim C1: on every open engine, `get(k)` returns the MemTable value for
`k` when present (absent if it is the tombstone); otherwise it consults SST
segments newest to oldest and answers from the first segment whose
`search(k)` is non-absent (absent if that value is the tombstone), skipping
segments whose `search(k)` is absent; if no segment mentions `k`, `get(k)`
is absent. -/
theorem C1_get_read_path (e : MiniKV) (k : Txt) (h : e.isOpen = true) :
    (e.get k).1 = .ok (
      match dGet e.memtable k with
      | some v => if v = TOMBSTONE then none else some v
      | none =>
        match (e.sstFiles.reverse).findSome? (fun s => searchVal s k) with
        | some v => if v = TOMBSTONE then none else some v
        | none => none) := by
  unfold MiniKV.get
  rw [h]
  simp only [Bool.not_true, Bool.false_eq_true, if_false]
  cases hdg : dGet e.memtable k with
  | some v => simp only [hdg]
  | none =>
    simp only [hdg]
    rw [← getLoop_fst]
    cases hr : (getLoop k e.sstFiles.reverse).1 <;> simp [hr]

/-- Witness for C1: with an empty MemTable, an absent answer from the newest
SST does not mask the value `1` stored for key `a` in the older SST
(continue semantics), while the tombstone stored for `c` in the newest SST
masks the older value. -/
theorem C1_witness :
    (MiniKV.get
      { config := ⟨.SYNC, 10, 5, 1000⟩
        memtable := []
        sstFiles := [writeFromMemtable [("a".data, "1".data), ("c".data, "3".data)],
                     writeFromMemtable [("b".data, "2".data), ("c".data, TOMBSTONE)]]
        walContent := [], walExists := true, walHandle := true, isOpen := true
        pendingWalOps := 0, lastSyncTime := 0, adaptiveBatchSize := 10
        fsyncCount := 0 } "a".data).1 = .ok (some "1".data) ∧
    (MiniKV.get
      { config := ⟨.SYNC, 10, 5, 1000⟩
        memtable := []
        sstFiles := [writeFromMemtable [("a".data, "1".data), ("c".data, "3".data)],
                     writeFromMemtable [("b".data, "2".data), ("c".data, TOMBSTONE)]]
        walContent := [], walExists := true, walHandle := true, isOpen := true
        pendingWalOps := 0, lastSyncTime := 0, adaptiveBatchSize := 10
        fsyncCount := 0 } "c".data).1 = .ok none := by
  constructor
  · have h := C1_get_read_path
      { config := ⟨.SYNC, 10, 5, 1000⟩
        memtable := []
        sstFiles := [writeFromMemtable [("a".data, "1".data), ("c".data, "3".data)],
                     writeFromMemtable [("b".data, "2".data), ("c".data, TOMBSTONE)]]
        walContent := [], walExists := true, walHandle := true, isOpen := true
        pendingWalOps := 0, lastSyncTime := 0, adaptiveBatchSize := 10
        fsyncCount := 0 } "a".data rfl
    rw [h]; rfl
  · have h := C1_get_read_path
      { config := ⟨.SYNC, 10, 5, 1000⟩
        memtable := []
        sstFiles := [writeFromMemtable [("a".data, "1".data), ("c".data, "3".data)],
                     writeFromMemtable [("b".data, "2".data), ("c".data, TOMBSTONE)]]
        walContent := [], walExists := true, walHandle := true, isOpen := true
        pendingWalOps := 0, lastSyncTime := 0, adaptiveBatchSize := 10
        fsyncCount := 0 } "c".data rfl
    rw [h]; rfl

/-! ### Claim C2 -/

theorem replayLine_putRec (m : List (Txt × Txt)) {k v : Txt}
    (hk : '\t' ∉ k) (hv : '\t' ∉ v) :
    replayLine m ("PUT".data ++ '\t' :: (k ++ '\t' :: v)) = dSet m k v := by
  unfold replayLine
  rw [if_neg (by
    intro hcon
    exact absurd (List.append_eq_nil.mp hcon).1 (by decide))]
  rw [splitTabs_append (by decide), splitTabs_append hk, splitTabs_no_tab hv]
  simp

theorem replayLine_delRec (m : List (Txt × Txt)) {k : Txt} (hk : '\t' ∉ k) :
    replayLine m ("DEL".data ++ '\t' :: k) = dSet m k TOMBSTONE := by
  unfold replayLine
  rw [if_neg (by
    intro hcon
    exact absurd (List.append_eq_nil.mp hcon).1 (by decide))]
  rw [splitTabs_append (by decide), splitTabs_no_tab hk]
  simp

theorem replay_walText (ops : List WalOp) (hwf : ∀ op ∈ ops, wfOp op)
    (m : List (Txt × Txt)) :
    (splitNl (walText ops)).foldl replayLine m = ops.foldl applyOp m := by
  induction ops generalizing m with
  | nil => rfl
  | cons op rest ih =>
    have hop := hwf op (List.mem_cons_self _ _)
    have hrest : ∀ o ∈ rest, wfOp o := fun o ho => hwf o (List.mem_cons_of_mem _ ho)
    have hw : walText (op :: rest) = encodeOp op ++ walText rest := by
      simp [walText]
    rw [hw]
    cases op with
    | putRec k v =>
      obtain ⟨⟨hk1, hk2, hk3⟩, hv1, hv2, hv3⟩ := hop
      have hassoc : encodeOp (WalOp.putRec k v) ++ walText rest
          = ("PUT".data ++ '\t' :: (k ++ '\t' :: v)) ++ '\n' :: walText rest := by
        simp [encodeOp, recPut]
      have hnln : '\n' ∉ "PUT".data ++ '\t' :: (k ++ '\t' :: v) := by
        intro hmem
        simp only [List.mem_append, List.mem_cons] at hmem
        rcases hmem with h | h | h | h | h
        · exact absurd h (by decide)
        · exact absurd h (by decide)
        · exact hk3 h
        · exact absurd h (by decide)
        · exact hv3 h
      rw [hassoc, splitNl_append_line hnln, List.foldl_cons,
        replayLine_putRec m hk2 hv2]
      exact ih hrest (dSet m k v)
    | delRec k =>
      obtain ⟨hk1, hk2, hk3⟩ := hop
      have hassoc : encodeOp (WalOp.delRec k) ++ walText rest
          = ("DEL".data ++ '\t' :: k) ++ '\n' :: walText rest := by
        simp [encodeOp, recDel]
      have hnln : '\n' ∉ "DEL".data ++ '\t' :: k := by
        intro hmem
        simp only [List.mem_append, List.mem_cons] at hmem
        rcases hmem with h | h | h
        · exact absurd h (by decide)
        · exact absurd h (by decide)
        · exact hk3 h
      rw [hassoc, splitNl_append_line hnln, List.foldl_cons,
        replayLine_delRec m hk2]
      exact ih hrest (dSet m k TOMBSTONE)

/-- Claim C2: for every finite sequence of `append_put`/`append_delete`
records with well-formed keys and values (non-empty, no TAB, no LF) written
to an initially empty WAL, `replay_into` on an empty MemTable reproduces
exactly the mapping obtained by applying the operations in order (each key
maps to its last PUT value, or to the tombstone if its last operation was a
DELETE, and no other key is present). -/
theorem C2_wal_round_trip (ops : List WalOp) (hwf : ∀ op ∈ ops, wfOp op) :
    replayMem (walText ops) = ops.foldl applyOp [] :=
  replay_walText ops hwf []

/-- Witness for C2: a concrete `PUT a 1; DEL a; PUT b 2` history replays to
exactly `a ↦ TOMBSTONE, b ↦ "2"`. -/
theorem C2_witness :
    replayMem (walText
      [.putRec "a".data "1".data, .delRec "a".data, .putRec "b".data "2".data])
      = [("a".data, TOMBSTONE), ("b".data, "2".data)] := by
  have h := C2_wal_round_trip
    [.putRec "a".data "1".data, .delRec "a".data, .putRec "b".data "2".data]
    (by decide)
  rw [h]
  decide

/-! ### SST write/search correctness (claims C7, C8) -/

/-- Convenient well-formedness of one entry: no TAB/LF in key or value. -/
@[reducible] def wfPair (p : Txt × Txt) : Prop :=
  ('\t' ∉ p.1 ∧ '\n' ∉ p.1) ∧ ('\t' ∉ p.2 ∧ '\n' ∉ p.2)

theorem sortItems_keys_strict (m : List (Txt × Txt))
    (hnd : (m.map Prod.fst).Nodup) :
    ((sortItems m).map Prod.fst).Pairwise (fun a b => ltStr a b = true) := by
  have hs : ((sortItems m).map Prod.fst).Pairwise (fun a b => leStr a b = true) :=
    List.pairwise_map.mpr (sortItems_sorted m)
  have hnd' : ((sortItems m).map Prod.fst).Nodup :=
    (((sortItems_perm m).map Prod.fst).nodup_iff).mpr hnd
  exact (hs.and hnd').imp fun hab => leStr_of_ne hab.1 hab.2

theorem lineOf_ne_nil (p : Txt × Txt) : lineOf p ≠ [] := by
  unfold lineOf
  intro hcon
  exact absurd (List.append_eq_nil.mp hcon).2 (List.cons_ne_nil _ _)

theorem nl_not_mem_lineOf {p : Txt × Txt} (hp : wfPair p) : '\n' ∉ lineOf p := by
  intro hmem
  unfold lineOf at hmem
  simp only [List.mem_append, List.mem_cons] at hmem
  rcases hmem with h | h | h
  · exact hp.1.2 h
  · exact absurd h (by decide)
  · exact hp.2.2 h

theorem splitNl_sstText (items : List (Txt × Txt))
    (h : ∀ p ∈ items, wfPair p) :
    splitNl (sstText items) = items.map lineOf := by
  induction items with
  | nil => rfl
  | cons p rest ih =>
    have hp := h p (List.mem_cons_self _ _)
    have hrest : ∀ q ∈ rest, wfPair q := fun q hq => h q (List.mem_cons_of_mem _ hq)
    have hshape : sstText (p :: rest) = lineOf p ++ '\n' :: sstText rest := by
      simp [sstText]
    rw [hshape, splitNl_append_line (nl_not_mem_lineOf hp), ih hrest]
    rfl

theorem scanLines_map (items : List (Txt × Txt))
    (h : ∀ p ∈ items, '\t' ∉ p.1) (k : Txt) :
    scanLines (items.map lineOf) k = dGet items k := by
  induction items with
  | nil => rfl
  | cons p rest ih =>
    obtain ⟨k0, v0⟩ := p
    have hp : '\t' ∉ k0 := h (k0, v0) (List.mem_cons_self _ _)
    have hrest : ∀ q ∈ rest, '\t' ∉ q.1 := fun q hq => h q (List.mem_cons_of_mem _ hq)
    show scanLines (lineOf (k0, v0) :: rest.map lineOf) k = dGet ((k0, v0) :: rest) k
    unfold scanLines
    rw [if_neg (lineOf_ne_nil (k0, v0))]
    have hsp : splitFirstTab (lineOf (k0, v0)) = some (k0, v0) :=
      splitFirstTab_encode hp v0
    rw [hsp]
    show (if k0 = k then some v0 else scanLines (rest.map lineOf) k)
        = (if k0 = k then some v0 else dGet rest k)
    by_cases hk : k0 = k
    · rw [if_pos hk, if_pos hk]
    · rw [if_neg hk, if_neg hk]
      exact ih hrest

theorem validKey?_lineOf {p : Txt × Txt} (hp : '\t' ∉ p.1) :
    validKey? (lineOf p) = some p.1 := by
  unfold validKey?
  rw [if_neg (lineOf_ne_nil p)]
  show (splitFirstTab (p.1 ++ '\t' :: p.2)).map Prod.fst = some p.1
  rw [splitFirstTab_encode hp]
  rfl

theorem minMaxScan_cons_valid {l k0 : Txt} (hv : validKey? l = some k0)
    (ls : List Txt) (first last : Option Txt) :
    minMaxScan (l :: ls) first last =
      minMaxScan ls
        (match first with | none => some k0 | some f => some f) (some k0) := by
  conv_lhs => unfold minMaxScan
  rw [hv]

theorem minMaxScan_map (items : List (Txt × Txt))
    (h : ∀ p ∈ items, '\t' ∉ p.1) :
    ∀ first last : Option Txt,
      minMaxScan (items.map lineOf) first last =
        ((match first with
          | none => (items.map Prod.fst).head?
          | some f => some f),
         (match (items.map Prod.fst).getLast? with
          | some x => some x
          | none => last)) := by
  induction items with
  | nil =>
    intro first last
    cases first <;> rfl
  | cons p rest ih =>
    intro first last
    have hp : '\t' ∉ p.1 := h p (List.mem_cons_self _ _)
    have hrest : ∀ q ∈ rest, '\t' ∉ q.1 := fun q hq => h q (List.mem_cons_of_mem _ hq)
    show minMaxScan (lineOf p :: rest.map lineOf) first last = _
    rw [minMaxScan_cons_valid (validKey?_lineOf hp), ih hrest]
    cases hre : rest with
    | nil =>
      cases first <;> rfl
    | cons q tl =>
      have hlast : ((p :: q :: tl).map Prod.fst).getLast? =
          ((q :: tl).map Prod.fst).getLast? := by
        simp only [List.map_cons]
        exact List.getLast?_cons_cons
      have hsome : (((q :: tl).map Prod.fst).getLast?).isSome = true := by
        rw [List.getLast?_isSome]
        simp
      cases hg : ((q :: tl).map Prod.fst).getLast? with
      | none => rw [hg] at hsome; simp at hsome
      | some x =>
        simp only [hlast, hg]
        cases first <;> rfl

theorem pairwise_head_le {ks : List Txt}
    (hks : ks.Pairwise (fun a b => leStr a b = true)) {mn x : Txt}
    (hmn : ks.head? = some mn) (hx : x ∈ ks) : leStr mn x = true := by
  cases ks with
  | nil => simp at hmn
  | cons a tl =>
    injection hmn with hmn
    subst hmn
    rcases List.mem_cons.mp hx with rfl | hx
    · exact leStr_refl _
    · exact (List.pairwise_cons.mp hks).1 x hx

theorem pairwise_le_getLast {ks : List Txt} :
    ks.Pairwise (fun a b => leStr a b = true) → ∀ {mx x : Txt},
      ks.getLast? = some mx → x ∈ ks → leStr x mx = true := by
  induction ks with
  | nil =>
    intro _ mx x hmx _
    simp at hmx
  | cons a tl ih =>
    intro hks mx x hmx hx
    rcases List.pairwise_cons.mp hks with ⟨ha, htl⟩
    cases tl with
    | nil =>
      simp at hmx
      subst hmx
      rcases List.mem_cons.mp hx with rfl | hx
      · exact leStr_refl _
      · simp at hx
    | cons b tl2 =>
      rw [List.getLast?_cons_cons] at hmx
      rcases List.mem_cons.mp hx with rfl | hx
      · exact ha mx (List.mem_of_getLast?_eq_some hmx)
      · exact ih htl hmx hx

/-- The lazily loaded metadata of an SST descriptor is either still unset or
already equal to the first/last key of its (sorted) entries. -/
def MetaOk (s : SSTSeg) (items : List (Txt × Txt)) : Prop :=
  (s.minKey = none ∧ s.maxKey = none) ∨
  (s.minKey = (items.map Prod.fst).head? ∧ s.maxKey = (items.map Prod.fst).getLast?)

/-- `s` is the segment written by `write_from_memtable` from the snapshot `m`
(well-formed entries, unique keys), with its file present on disk and its
metadata in one of the two states the engine can produce. -/
def WfSSTOf (s : SSTSeg) (m : List (Txt × Txt)) : Prop :=
  (∀ p ∈ m, wfPair p) ∧
  (m.map Prod.fst).Nodup ∧
  s.onDisk = true ∧
  s.content = sstText (sortItems m) ∧
  MetaOk s (sortItems m)

theorem wfSSTOf_write (m : List (Txt × Txt)) (hwf : ∀ p ∈ m, wfPair p)
    (hnd : (m.map Prod.fst).Nodup) : WfSSTOf (writeFromMemtable m) m :=
  ⟨hwf, hnd, rfl, rfl, Or.inr ⟨rfl, rfl⟩⟩

theorem ensureMinMax_wf {s : SSTSeg} {m : List (Txt × Txt)} (h : WfSSTOf s m) :
    ensureMinMax s =
      { s with minKey := ((sortItems m).map Prod.fst).head?
               maxKey := ((sortItems m).map Prod.fst).getLast? } := by
  obtain ⟨hwf, hnd, hdisk, hcontent, hmeta⟩ := h
  have hwfs : ∀ p ∈ sortItems m, wfPair p :=
    fun p hp => hwf p ((sortItems_perm m).mem_iff.mp hp)
  have htabs : ∀ p ∈ sortItems m, '\t' ∉ p.1 := fun p hp => (hwfs p hp).1.1
  have hfl : minMaxScan (splitNl s.content) none none =
      (((sortItems m).map Prod.fst).head?, ((sortItems m).map Prod.fst).getLast?) := by
    rw [hcontent, splitNl_sstText _ hwfs, minMaxScan_map _ htabs none none]
    cases hg : ((sortItems m).map Prod.fst).getLast? <;> rfl
  rcases hmeta with ⟨h1, h2⟩ | ⟨h1, h2⟩
  · unfold ensureMinMax
    rw [h1, h2]
    simp only [Option.isSome_none, Bool.and_self, Bool.false_eq_true, if_false,
      hdisk, Bool.not_true]
    rw [hfl]
  · cases hks : (sortItems m).map Prod.fst with
    | nil =>
      unfold ensureMinMax
      rw [h1, h2, hks]
      simp only [List.head?_nil, List.getLast?_nil, Option.isSome_none,
        Bool.and_self, Bool.false_eq_true, if_false, hdisk, Bool.not_true]
      rw [hfl, hks]
      rfl
    | cons a tl =>
      have hmin : s.minKey = some a := by rw [h1, hks]; rfl
      have hmaxSome : (s.maxKey).isSome = true := by
        rw [h2, hks, List.getLast?_isSome]
        simp
      unfold ensureMinMax
      rw [if_pos (by rw [hmin]; simp [hmaxSome])]
      rw [hks] at h1 h2
      rw [← h1, ← h2]

theorem search_eq_of_meta (s : SSTSeg) (k : Txt) (hdisk : s.onDisk = true)
    (mn mx : Txt) (hmn : (ensureMinMax s).minKey = some mn)
    (hmx : (ensureMinMax s).maxKey = some mx) :
    s.search k =
      (if ltStr k mn || ltStr mx k then (none, ensureMinMax s)
       else (scanLines (splitNl (ensureMinMax s).content) k, ensureMinMax s)) := by
  unfold SSTSeg.search
  rw [hdisk]
  simp only [Bool.not_true, Bool.false_eq_true, if_false]
  rw [hmn, hmx]

theorem search_eq_of_no_meta (s : SSTSeg) (k : Txt) (hdisk : s.onDisk = true)
    (hmn : (ensureMinMax s).minKey = none) :
    s.search k = (scanLines (splitNl (ensureMinMax s).content) k, ensureMinMax s) := by
  unfold SSTSeg.search
  rw [hdisk]
  simp only [Bool.not_true, Bool.false_eq_true, if_false]
  rw [hmn]

theorem search_wf {s : SSTSeg} {m : List (Txt × Txt)} (h : WfSSTOf s m) (k : Txt) :
    (s.search k).1 = dGet m k ∧
    (s.search k).1 = scanLines (splitNl s.content) k := by
  obtain ⟨hwf, hnd, hdisk, hcontent, hmeta⟩ := h
  have hW : WfSSTOf s m := ⟨hwf, hnd, hdisk, hcontent, hmeta⟩
  have hwfs : ∀ p ∈ sortItems m, wfPair p :=
    fun p hp => hwf p ((sortItems_perm m).mem_iff.mp hp)
  have htabs : ∀ p ∈ sortItems m, '\t' ∉ p.1 := fun p hp => (hwfs p hp).1.1
  have hnd' : ((sortItems m).map Prod.fst).Nodup :=
    (((sortItems_perm m).map Prod.fst).nodup_iff).mpr hnd
  have hscan : scanLines (splitNl s.content) k = dGet m k := by
    rw [hcontent, splitNl_sstText _ hwfs, scanLines_map _ htabs k]
    exact dGet_perm (sortItems_perm m) hnd' k
  have hpw : ((sortItems m).map Prod.fst).Pairwise (fun a b => leStr a b = true) :=
    List.pairwise_map.mpr (sortItems_sorted m)
  have hE := ensureMinMax_wf hW
  have hc : (ensureMinMax s).content = s.content := by rw [hE]
  cases hks : (sortItems m).map Prod.fst with
  | nil =>
    have hmn : (ensureMinMax s).minKey = none := by rw [hE, hks]; rfl
    rw [search_eq_of_no_meta s k hdisk hmn]
    constructor
    · show scanLines (splitNl (ensureMinMax s).content) k = dGet m k
      rw [hc]
      exact hscan
    · show scanLines (splitNl (ensureMinMax s).content) k = scanLines (splitNl s.content) k
      rw [hc]
  | cons a tl =>
    have hmn : (ensureMinMax s).minKey = some a := by rw [hE, hks]; rfl
    have hgs : ((a :: tl).getLast?).isSome = true := by
      rw [List.getLast?_isSome]
      simp
    cases hg : (a :: tl).getLast? with
    | none => rw [hg] at hgs; simp at hgs
    | some mx =>
      have hmx : (ensureMinMax s).maxKey = some mx := by rw [hE, hks]; exact hg
      rw [search_eq_of_meta s k hdisk a mx hmn hmx]
      rw [hks] at hpw
      split_ifs with hpr
      · have hnone : dGet m k = none := by
          cases hd : dGet m k with
          | none => rfl
          | some v =>
            have hk1 : k ∈ m.map Prod.fst :=
              (dGet_isSome_iff_mem_keys m k).mp (by rw [hd]; rfl)
            have hk2 : k ∈ (a :: tl) := by
              rw [← hks]
              exact (((sortItems_perm m).map Prod.fst).mem_iff).mpr hk1
            rcases (Bool.or_eq_true _ _).mp hpr with hl | hr
            · have hle := pairwise_head_le hpw (by rfl) hk2
              simp only [leStr, Bool.not_eq_true'] at hle
              rw [hle] at hl
              exact absurd hl (by simp)
            · have hle := pairwise_le_getLast hpw hg hk2
              simp only [leStr, Bool.not_eq_true'] at hle
              rw [hle] at hr
              exact absurd hr (by simp)
        constructor
        · show (none : Option Txt) = dGet m k
          rw [hnone]
        · show (none : Option Txt) = scanLines (splitNl s.content) k
          rw [hscan, hnone]
      · constructor
        · show scanLines (splitNl (ensureMinMax s).content) k = dGet m k
          rw [hc]
          exact hscan
        · show scanLines (splitNl (ensureMinMax s).content) k
              = scanLines (splitNl s.content) k
          rw [hc]

/-! ### Claims C7 and C8 -/

/-- Claim C7: for every non-empty snapshot of well-formed entries with unique
keys, `write_from_memtable` writes exactly one `key<TAB>value` line per
entry, with lines sorted ascending by key and each key appearing exactly
once, and the returned descriptor has `min_key`/`max_key` equal to the first
and last written keys, so `min_key ≤ max_key`; both are set iff the snapshot
is non-empty. -/
theorem C7_sst_write_format (m : List (Txt × Txt))
    (hwf : ∀ p ∈ m, wfPair p) (hnd : (m.map Prod.fst).Nodup) :
    (m ≠ [] →
      splitNl (writeFromMemtable m).content = (sortItems m).map lineOf ∧
      (sortItems m).Perm m ∧
      ((sortItems m).map Prod.fst).Pairwise (fun a b => ltStr a b = true) ∧
      (∃ mn mx, (writeFromMemtable m).minKey = some mn ∧
        (writeFromMemtable m).maxKey = some mx ∧
        some mn = ((sortItems m).map Prod.fst).head? ∧
        some mx = ((sortItems m).map Prod.fst).getLast? ∧
        leStr mn mx = true)) ∧
    (((writeFromMemtable m).minKey.isSome = true ∧
      (writeFromMemtable m).maxKey.isSome = true) ↔ m ≠ []) := by
  have hwfs : ∀ p ∈ sortItems m, wfPair p :=
    fun p hp => hwf p ((sortItems_perm m).mem_iff.mp hp)
  have hpw : ((sortItems m).map Prod.fst).Pairwise (fun a b => leStr a b = true) :=
    List.pairwise_map.mpr (sortItems_sorted m)
  have hkeys_nil : (sortItems m).map Prod.fst = [] ↔ m = [] := by
    rw [List.map_eq_nil_iff]
    constructor
    · intro hh
      have hl := (sortItems_perm m).length_eq
      rw [hh] at hl
      exact List.eq_nil_of_length_eq_zero hl.symm
    · intro hh
      subst hh
      rfl
  constructor
  · intro hne
    refine ⟨splitNl_sstText _ hwfs, sortItems_perm m, sortItems_keys_strict m hnd, ?_⟩
    cases hks : (sortItems m).map Prod.fst with
    | nil => exact absurd (hkeys_nil.mp hks) hne
    | cons a tl =>
      have hgs : ((a :: tl).getLast?).isSome = true := by
        rw [List.getLast?_isSome]
        simp
      cases hg : (a :: tl).getLast? with
      | none => rw [hg] at hgs; simp at hgs
      | some mx =>
        refine ⟨a, mx, ?_, ?_, ?_, ?_, ?_⟩
        · show ((sortItems m).map Prod.fst).head? = some a
          rw [hks]; rfl
        · show ((sortItems m).map Prod.fst).getLast? = some mx
          rw [hks]; exact hg
        · rfl
        · rfl
        · rw [hks] at hpw
          exact pairwise_head_le hpw (by rfl) (List.mem_of_getLast?_eq_some hg)
  · show (((sortItems m).map Prod.fst).head?.isSome = true ∧
        ((sortItems m).map Prod.fst).getLast?.isSome = true) ↔ m ≠ []
    constructor
    · intro ⟨hh, _⟩ hm
      rw [hkeys_nil.mpr hm] at hh
      simp at hh
    · intro hm
      have hk : (sortItems m).map Prod.fst ≠ [] := fun hh => hm (hkeys_nil.mp hh)
      constructor
      · cases hcc : (sortItems m).map Prod.fst with
        | nil => exact absurd hcc hk
        | cons x xs => rfl
      · rw [List.getLast?_isSome]
        exact hk

/-- Claim C8: for a segment produced by `write_from_memtable` from a
well-formed snapshot `m` (and for any descriptor over the same file whose
lazy metadata is in an engine-producible state), `search(k)` returns `m`'s
value for `k`, and equals the plain linear scan of the file — the
`min_key`/`max_key` pruning never changes the answer. -/
theorem C8_sst_search_correct (m : List (Txt × Txt)) (k : Txt)
    (hwf : ∀ p ∈ m, wfPair p) (hnd : (m.map Prod.fst).Nodup) :
    ((writeFromMemtable m).search k).1 = dGet m k ∧
    ((writeFromMemtable m).search k).1
      = scanLines (splitNl (writeFromMemtable m).content) k ∧
    ∀ s, WfSSTOf s m → (s.search k).1 = dGet m k := by
  have h := search_wf (wfSSTOf_write m hwf hnd) k
  exact ⟨h.1, h.2, fun s hs => (search_wf hs k).1⟩

/-- Witness for C7 on the concrete snapshot `{b ↦ 2, a ↦ 1}`. -/
theorem C7_witness :
    splitNl (writeFromMemtable [("b".data, "2".data), ("a".data, "1".data)]).content
      = ["a\t1".data, "b\t2".data] ∧
    (writeFromMemtable [("b".data, "2".data), ("a".data, "1".data)]).minKey
      = some "a".data ∧
    (writeFromMemtable [("b".data, "2".data), ("a".data, "1".data)]).maxKey
      = some "b".data := by
  have h := (C7_sst_write_format [("b".data, "2".data), ("a".data, "1".data)]
    (by decide) (by decide)).1 (by decide)
  obtain ⟨h1, _, _, mn, mx, hmn, hmx, hmn2, hmx2, _⟩ := h
  refine ⟨h1.trans (by decide), ?_, ?_⟩
  · rw [hmn, hmn2]
    decide
  · rw [hmx, hmx2]
    decide

/-- Witness for C8 on the concrete snapshot `{a ↦ 1, c ↦ 3}`: a present key,
an absent key inside the range, and an absent key pruned by the range
check. -/
theorem C8_witness :
    ((writeFromMemtable [("a".data, "1".data), ("c".data, "3".data)]).search
      "a".data).1 = some "1".data ∧
    ((writeFromMemtable [("a".data, "1".data), ("c".data, "3".data)]).search
      "b".data).1 = none ∧
    ((writeFromMemtable [("a".data, "1".data), ("c".data, "3".data)]).search
      "z".data).1 = none := by
  have h1 := (C8_sst_search_correct [("a".data, "1".data), ("c".data, "3".data)]
    "a".data (by decide) (by decide)).1
  have h2 := (C8_sst_search_correct [("a".data, "1".data), ("c".data, "3".data)]
    "b".data (by decide) (by decide)).1
  have h3 := (C8_sst_search_correct [("a".data, "1".data), ("c".data, "3".data)]
    "z".data (by decide) (by decide)).1
  exact ⟨h1.trans (by decide), h2.trans (by decide), h3.trans (by decide)⟩

/-! ### Claim C3 -/

/-- The file-level invariant behind claim C3: on a reachable engine, when
both the MemTable and the SST list are empty there is nothing the WAL could
be holding, so the WAL file is empty. -/
def WalInv (e : MiniKV) : Prop :=
  e.memtable = [] ∧ e.sstFiles = [] → e.walContent = []

/-- The WAL file only ever holds a concatenation of well-formed records
appended by the engine. -/
def WalWfC (c : Txt) : Prop :=
  ∃ ops : List WalOp, (∀ op ∈ ops, wfOp op) ∧ c = walText ops

theorem flushToSst_cases (e : MiniKV) :
    (e.memtable = [] ∧ flushToSst e = e) ∨
    (e.memtable ≠ [] ∧ flushToSst e =
      { e with sstFiles := e.sstFiles ++ [writeFromMemtable e.memtable]
               memtable := [] }) := by
  unfold flushToSst
  split_ifs with h
  · exact Or.inl ⟨h, rfl⟩
  · exact Or.inr ⟨h, rfl⟩

theorem checkpointWal_eq (e : MiniKV) (hw : e.walHandle = true) :
    checkpointWal e =
      { e with walContent := [], walExists := true, walHandle := true } := by
  unfold checkpointWal
  rw [hw]
  rfl

/-- Claim C3: after every successful `compact_all` on an open engine (in a
reachable WAL state), the WAL file exists, is empty (zero bytes), and the
WAL is open and ready for future appends — including the early-return case
where there are no SST segments to merge after the initial flush. -/
theorem C3_compact_clears_wal (e : MiniKV) (ho : e.isOpen = true)
    (hw : e.walHandle = true) (hx : e.walExists = true) (hinv : WalInv e) :
    (compactAll e).1 = .ok () ∧
    ((compactAll e).2).walExists = true ∧
    ((compactAll e).2).walContent = [] ∧
    ((compactAll e).2).walHandle = true := by
  obtain ⟨hok, hcases⟩ := compactAll_shape e ho
  refine ⟨hok, ?_⟩
  rcases hcases with ⟨heq, hnil⟩ | ⟨hne, hrest⟩
  · rcases flushToSst_cases e with ⟨hm, hfe⟩ | ⟨hm, hfe⟩
    · rw [heq, hfe]
      have hwc : e.walContent = [] := hinv ⟨hm, by rw [hfe] at hnil; exact hnil⟩
      exact ⟨hx, hwc, hw⟩
    · rw [hfe] at hnil
      simp at hnil
  · have hfw : (flushToSst e).walHandle = true :=
      (flushToSst_proj e).2.2.2.1.trans hw
    rcases hrest with ⟨_, heq⟩ | ⟨_, heq⟩ <;>
    · rw [heq, checkpointWal_eq _ (by exact hfw)]
      exact ⟨rfl, rfl, rfl⟩

/-- Witness for C3: the concrete scenario `open; put a 1; delete a;
compact_all` (SYNC mode), where the merge result is empty, the SST list
ends up empty, and the WAL is still truncated to zero bytes. -/
theorem C3_witness :
    (compactAll
      ((((openFresh ⟨.SYNC, 10, 5, 1000⟩).put 0 "a".data "1".data).2.delete 0
        "a".data).2)).1 = .ok () ∧
    ((compactAll
      ((((openFresh ⟨.SYNC, 10, 5, 1000⟩).put 0 "a".data "1".data).2.delete 0
        "a".data).2)).2).walContent = [] ∧
    ((compactAll
      ((((openFresh ⟨.SYNC, 10, 5, 1000⟩).put 0 "a".data "1".data).2.delete 0
        "a".data).2)).2).walExists = true := by
  have h := C3_compact_clears_wal
    ((((openFresh ⟨.SYNC, 10, 5, 1000⟩).put 0 "a".data "1".data).2.delete 0
      "a".data).2)
    (by decide) (by decide) (by decide)
    (by intro hc; exact absurd hc.1 (by decide))
  exact ⟨h.1, h.2.2.1, h.2.1⟩

/-! `WalInv` (together with well-formedness of the WAL text) really is an
invariant of engine execution: it holds for a newly constructed engine and
is preserved by `open`, `put`, `delete`, `get`, `close` and `compact_all`.
-/

/-- `WalInv` plus "the WAL text is a concatenation of well-formed engine
records". -/
def EngineWalInv (e : MiniKV) : Prop := WalInv e ∧ WalWfC e.walContent

theorem walText_append (ops : List WalOp) (op : WalOp) :
    walText (ops ++ [op]) = walText ops ++ encodeOp op := by
  simp [walText]

theorem foldl_applyOp_ne_nil (ops : List WalOp) (m : List (Txt × Txt))
    (hm : m ≠ []) : ops.foldl applyOp m ≠ [] := by
  induction ops generalizing m with
  | nil => exact hm
  | cons op rest ih =>
    cases op with
    | putRec k v => exact ih _ (dSet_ne_nil _ _ _)
    | delRec k => exact ih _ (dSet_ne_nil _ _ _)

theorem replayMem_nil_of_wf {c : Txt} (hc : WalWfC c) (h : replayMem c = []) :
    c = [] := by
  obtain ⟨ops, hwf, rfl⟩ := hc
  have hr : replayMem (walText ops) = ops.foldl applyOp [] :=
    replay_walText ops hwf []
  rw [hr] at h
  cases ops with
  | nil => rfl
  | cons op rest =>
    exfalso
    have : (op :: rest).foldl applyOp [] ≠ [] := by
      cases op with
      | putRec k v => exact foldl_applyOp_ne_nil rest _ (dSet_ne_nil _ _ _)
      | delRec k => exact foldl_applyOp_ne_nil rest _ (dSet_ne_nil _ _ _)
    exact this h

theorem engineWalInv_mkInit (cfg : MiniKVConfig) :
    EngineWalInv (MiniKV.mkInit cfg) :=
  ⟨fun _ => rfl, [], by simp, rfl⟩

theorem engineWalInv_doOpen (e : MiniKV) (dirSsts : List SSTSeg)
    (h : EngineWalInv e) : EngineWalInv (e.doOpen dirSsts) := by
  unfold MiniKV.doOpen
  split_ifs with ho hx
  · exact h
  · constructor
    · rintro ⟨hm, _⟩
      exact replayMem_nil_of_wf h.2 hm
    · exact h.2
  · exact ⟨fun _ => rfl, [], by simp, rfl⟩

theorem engineWalInv_put (e : MiniKV) (now : ℚ) (k v : Txt)
    (hk : wfTxt k) (hv : wfTxt v) (h : EngineWalInv e) :
    EngineWalInv ((e.put now k v).2) := by
  by_cases ho : e.isOpen = true
  · by_cases hw : e.walHandle = true
    · rw [put_eq e now k v ho hw]
      dsimp only
      constructor
      · rintro ⟨hm, hs⟩
        exfalso
        rcases maybeFlush_cases
            { afterWalAppend
                { e with walContent := e.walContent ++ recPut k v
                         pendingWalOps := e.pendingWalOps + 1 } now with
              memtable := dSet (afterWalAppend
                { e with walContent := e.walContent ++ recPut k v
                         pendingWalOps := e.pendingWalOps + 1 } now).memtable k v }
          with hq | hq
        · rw [hq] at hm hs
          rcases flushToSst_cases
              { afterWalAppend
                  { e with walContent := e.walContent ++ recPut k v
                           pendingWalOps := e.pendingWalOps + 1 } now with
                memtable := dSet (afterWalAppend
                  { e with walContent := e.walContent ++ recPut k v
                           pendingWalOps := e.pendingWalOps + 1 } now).memtable k v }
            with ⟨hm4, _⟩ | ⟨_, hfe⟩
          · exact absurd hm4 (dSet_ne_nil _ _ _)
          · rw [hfe] at hs
            simp at hs
        · rw [hq] at hm
          exact absurd hm (dSet_ne_nil _ _ _)
      · obtain ⟨ops, hwf, hcon⟩ := h.2
        refine ⟨ops ++ [.putRec k v], ?_, ?_⟩
        · intro op hop
          rcases List.mem_append.mp hop with hop | hop
          · exact hwf op hop
          · simp at hop
            subst hop
            exact ⟨hk, hv⟩
        · rw [walText_append, ← hcon]
          rw [(maybeFlush_proj _).2.1]
          show (afterWalAppend
              { e with walContent := e.walContent ++ recPut k v
                       pendingWalOps := e.pendingWalOps + 1 } now).walContent
            = e.walContent ++ encodeOp (WalOp.putRec k v)
          rw [(afterWalAppend_proj _ now).2.2.2.1]
          rfl
    · have hw' : e.walHandle = false := by
        cases hh : e.walHandle
        · rfl
        · exact absurd hh hw
      unfold MiniKV.put
      rw [ho, hw']
      exact h
  · have ho' : e.isOpen = false := by
      cases hh : e.isOpen
      · rfl
      · exact absurd hh ho
    unfold MiniKV.put
    rw [ho']
    exact h

theorem engineWalInv_delete (e : MiniKV) (now : ℚ) (k : Txt)
    (hk : wfTxt k) (h : EngineWalInv e) :
    EngineWalInv ((e.delete now k).2) := by
  by_cases ho : e.isOpen = true
  · by_cases hw : e.walHandle = true
    · rw [delete_eq e now k ho hw]
      dsimp only
      constructor
      · rintro ⟨hm, hs⟩
        exfalso
        rcases maybeFlush_cases
            { afterWalAppend
                { e with walContent := e.walContent ++ recDel k
                         pendingWalOps := e.pendingWalOps + 1 } now with
              memtable := dSet (afterWalAppend
                { e with walContent := e.walContent ++ recDel k
                         pendingWalOps := e.pendingWalOps + 1 } now).memtable k
                TOMBSTONE }
          with hq | hq
        · rw [hq] at hm hs
          rcases flushToSst_cases
              { afterWalAppend
                  { e with walContent := e.walContent ++ recDel k
                           pendingWalOps := e.pendingWalOps + 1 } now with
                memtable := dSet (afterWalAppend
                  { e with walContent := e.walContent ++ recDel k
                           pendingWalOps := e.pendingWalOps + 1 } now).memtable k
                  TOMBSTONE }
            with ⟨hm4, _⟩ | ⟨_, hfe⟩
          · exact absurd hm4 (dSet_ne_nil _ _ _)
          · rw [hfe] at hs
            simp at hs
        · rw [hq] at hm
          exact absurd hm (dSet_ne_nil _ _ _)
      · obtain ⟨ops, hwf, hcon⟩ := h.2
        refine ⟨ops ++ [.delRec k], ?_, ?_⟩
        · intro op hop
          rcases List.mem_append.mp hop with hop | hop
          · exact hwf op hop
          · simp at hop
            subst hop
            exact hk
        · rw [walText_append, ← hcon]
          rw [(maybeFlush_proj _).2.1]
          show (afterWalAppend
              { e with walContent := e.walContent ++ recDel k
                       pendingWalOps := e.pendingWalOps + 1 } now).walContent
            = e.walContent ++ encodeOp (WalOp.delRec k)
          rw [(afterWalAppend_proj _ now).2.2.2.1]
          rfl
    · have hw' : e.walHandle = false := by
        cases hh : e.walHandle
        · rfl
        · exact absurd hh hw
      unfold MiniKV.delete
      rw [ho, hw']
      exact h
  · have ho' : e.isOpen = false := by
      cases hh : e.isOpen
      · rfl
      · exact absurd hh ho
    unfold MiniKV.delete
    rw [ho']
    exact h

theorem engineWalInv_get (e : MiniKV) (k : Txt) (h : EngineWalInv e) :
    EngineWalInv ((e.get k).2) := by
  obtain ⟨h1, h2, h3, h4, h5, h6, h7, h8, h9, h10, h11⟩ := get_proj e k
  constructor
  · rintro ⟨hm, hs⟩
    rw [h3]
    exact h.1 ⟨h2 ▸ hm, h11.mp hs⟩
  · rw [h3]
    exact h.2

theorem engineWalInv_close (e : MiniKV) (now : ℚ) (h : EngineWalInv e) :
    EngineWalInv (e.close now) := by
  unfold MiniKV.close
  split_ifs with h1
  · exact h
  · dsimp only
    by_cases hfw : (flushToSst e).walHandle = true
    · rw [if_pos hfw]
      obtain ⟨s1, s2, s3, s4, s5, s6, s7⟩ := syncWalNow_proj (flushToSst e) now
      constructor
      · rintro ⟨hm, hs⟩
        show (syncWalNow (flushToSst e) now).walContent = []
        rw [s4, (flushToSst_proj e).2.1]
        have hm' : (flushToSst e).memtable = [] := s2 ▸ hm
        have hs' : (flushToSst e).sstFiles = [] := s3 ▸ hs
        rcases flushToSst_cases e with ⟨hme, hfe⟩ | ⟨hme, hfe⟩
        · rw [hfe] at hs'
          exact h.1 ⟨hme, hs'⟩
        · rw [hfe] at hs'
          simp at hs'
      · show WalWfC (syncWalNow (flushToSst e) now).walContent
        rw [s4, (flushToSst_proj e).2.1]
        exact h.2
    · rw [if_neg hfw]
      constructor
      · rintro ⟨hm, hs⟩
        show (flushToSst e).walContent = []
        rw [(flushToSst_proj e).2.1]
        rcases flushToSst_cases e with ⟨hme, hfe⟩ | ⟨hme, hfe⟩
        · rw [hfe] at hs
          exact h.1 ⟨hme, hs⟩
        · rw [hfe] at hs
          simp at hs
      · show WalWfC (flushToSst e).walContent
        rw [(flushToSst_proj e).2.1]
        exact h.2

theorem engineWalInv_compactAll (e : MiniKV) (hw : e.walHandle = true)
    (h : EngineWalInv e) : EngineWalInv ((compactAll e).2) := by
  by_cases ho : e.isOpen = true
  · rcases (compactAll_shape e ho).2 with ⟨heq, hnil⟩ | ⟨hne, hrest⟩
    · rw [heq]
      rcases flushToSst_cases e with ⟨hm, hfe⟩ | ⟨hm, hfe⟩
      · rw [hfe]
        exact h
      · rw [hfe] at hnil
        simp at hnil
    · have hfw : (flushToSst e).walHandle = true :=
        (flushToSst_proj e).2.2.2.1.trans hw
      rcases hrest with ⟨_, heq⟩ | ⟨_, heq⟩ <;>
      · rw [heq, checkpointWal_eq _ (by exact hfw)]
        exact ⟨fun _ => rfl, [], by simp, rfl⟩
  · have ho' : e.isOpen = false := by
      cases hh : e.isOpen
      · rfl
      · exact absurd hh ho
    unfold compactAll
    rw [ho']
    exact h

/-! ### Claim C4: compaction machinery -/

theorem mem_dSet {m : List (Txt × Txt)} {k v : Txt} {q : Txt × Txt}
    (h : q ∈ dSet m k v) : q ∈ m ∨ q = (k, v) := by
  induction m with
  | nil =>
    simp [dSet] at h
    exact Or.inr h
  | cons p rest ih =>
    obtain ⟨k', v'⟩ := p
    by_cases hk : k' = k
    · rw [dSet, if_pos hk] at h
      rcases List.mem_cons.mp h with rfl | h
      · subst hk
        exact Or.inr rfl
      · exact Or.inl (List.mem_cons_of_mem _ h)
    · rw [dSet, if_neg hk] at h
      rcases List.mem_cons.mp h with rfl | h
      · exact Or.inl (List.mem_cons_self _ _)
      · rcases ih h with h | h
        · exact Or.inl (List.mem_cons_of_mem _ h)
        · exact Or.inr h

theorem mem_keys_dSet {m : List (Txt × Txt)} {k v x : Txt}
    (h : x ∈ (dSet m k v).map Prod.fst) : x ∈ m.map Prod.fst ∨ x = k := by
  rcases List.mem_map.mp h with ⟨q, hq, rfl⟩
  rcases mem_dSet hq with hq | hq
  · exact Or.inl (List.mem_map.mpr ⟨q, hq, rfl⟩)
  · subst hq
    exact Or.inr rfl

theorem dSet_nodupKeys {m : List (Txt × Txt)} (h : (m.map Prod.fst).Nodup)
    (k v : Txt) : ((dSet m k v).map Prod.fst).Nodup := by
  induction m with
  | nil => simp [dSet]
  | cons p rest ih =>
    obtain ⟨k', v'⟩ := p
    simp only [List.map_cons, List.nodup_cons] at h
    by_cases hk : k' = k
    · rw [dSet, if_pos hk]
      simp only [List.map_cons, List.nodup_cons]
      exact h
    · rw [dSet, if_neg hk]
      simp only [List.map_cons, List.nodup_cons]
      refine ⟨?_, ih h.2⟩
      intro hmem
      rcases mem_keys_dSet hmem with hmem | hmem
      · exact h.1 hmem
      · exact hk hmem

/-- The item-level step of the compaction merge: what `mergeLine` does to one
parsed `key, value` pair. -/
def mergeItem (tomb : Txt) (acc : List (Txt × Txt) × List Txt) (p : Txt × Txt) :
    List (Txt × Txt) × List Txt :=
  if (dGet acc.1 p.1).isSome = true ∨ p.1 ∈ acc.2 then acc
  else if p.2 = tomb then (acc.1, acc.2 ++ [p.1])
  else (dSet acc.1 p.1 p.2, acc.2)

theorem mergeLine_lineOf (tomb : Txt) (acc : List (Txt × Txt) × List Txt)
    {p : Txt × Txt} (hp : '\t' ∉ p.1) :
    mergeLine tomb acc (lineOf p) = mergeItem tomb acc p := by
  unfold mergeLine mergeItem
  rw [if_neg (lineOf_ne_nil p)]
  show (match splitFirstTab (p.1 ++ '\t' :: p.2) with
    | none => acc
    | some (k, v) =>
      if (dGet acc.1 k).isSome = true ∨ k ∈ acc.2 then acc
      else if v = tomb then (acc.1, acc.2 ++ [k])
      else (dSet acc.1 k v, acc.2)) = _
  rw [splitFirstTab_encode hp]

theorem foldl_mergeLine_map (tomb : Txt) (items : List (Txt × Txt))
    (h : ∀ p ∈ items, '\t' ∉ p.1) (acc : List (Txt × Txt) × List Txt) :
    (items.map lineOf).foldl (mergeLine tomb) acc =
      items.foldl (mergeItem tomb) acc := by
  induction items generalizing acc with
  | nil => rfl
  | cons p rest ih =>
    have hp := h p (List.mem_cons_self _ _)
    have hrest : ∀ q ∈ rest, '\t' ∉ q.1 := fun q hq => h q (List.mem_cons_of_mem _ hq)
    show ((rest.map lineOf).foldl (mergeLine tomb) (mergeLine tomb acc (lineOf p))) = _
    rw [mergeLine_lineOf tomb acc hp, ih hrest]
    rfl

theorem filterMap_parse_map (items : List (Txt × Txt))
    (h : ∀ p ∈ items, '\t' ∉ p.1) :
    (items.map lineOf).filterMap
      (fun l => if l = [] then none else splitFirstTab l) = items := by
  induction items with
  | nil => rfl
  | cons p rest ih =>
    have hp : '\t' ∉ p.1 := (h p (List.mem_cons_self _ _))
    have hrest : ∀ q ∈ rest, '\t' ∉ q.1 := fun q hq => h q (List.mem_cons_of_mem _ hq)
    simp only [List.map_cons, List.filterMap_cons]
    rw [if_neg (lineOf_ne_nil p)]
    have hsp : splitFirstTab (lineOf p) = some (p.1, p.2) := splitFirstTab_encode hp p.2
    rw [hsp, ih hrest]

theorem sstEntries_write (m : List (Txt × Txt)) (hwf : ∀ p ∈ m, wfPair p) :
    sstEntries (writeFromMemtable m) = sortItems m := by
  have hwfs : ∀ p ∈ sortItems m, wfPair p :=
    fun p hp => hwf p ((sortItems_perm m).mem_iff.mp hp)
  have htabs : ∀ p ∈ sortItems m, '\t' ∉ p.1 := fun p hp => (hwfs p hp).1.1
  unfold sstEntries
  rw [show (writeFromMemtable m).content = sstText (sortItems m) from rfl,
    splitNl_sstText _ hwfs]
  exact filterMap_parse_map _ htabs

theorem dGet_cons_self (m : List (Txt × Txt)) (k v : Txt) :
    dGet ((k, v) :: m) k = some v := by
  show (if k = k then some v else dGet m k) = some v
  rw [if_pos rfl]

theorem dGet_cons_ne (m : List (Txt × Txt)) {k' k : Txt} (v : Txt) (h : k' ≠ k) :
    dGet ((k', v) :: m) k = dGet m k := by
  show (if k' = k then some v else dGet m k) = dGet m k
  rw [if_neg h]

theorem mergeItems_spec (tomb : Txt) (items : List (Txt × Txt)) :
    ∀ (acc : List (Txt × Txt) × List Txt) (k : Txt),
      (dGet (items.foldl (mergeItem tomb) acc).1 k =
        if (dGet acc.1 k).isSome = true ∨ k ∈ acc.2 then dGet acc.1 k
        else match dGet items k with
             | some v => if v = tomb then none else some v
             | none => none) ∧
      (k ∈ (items.foldl (mergeItem tomb) acc).2 ↔
        k ∈ acc.2 ∨ (dGet acc.1 k = none ∧ k ∉ acc.2 ∧ dGet items k = some tomb)) := by
  induction items with
  | nil =>
    intro acc k
    constructor
    · by_cases hres : (dGet acc.1 k).isSome = true ∨ k ∈ acc.2
      · rw [if_pos hres]
        rfl
      · rw [if_neg hres]
        push_neg at hres
        simpa using hres.1
    · show k ∈ acc.2 ↔ _
      constructor
      · exact Or.inl
      · rintro (h | ⟨_, _, h⟩)
        · exact h
        · exact absurd h (by simp [dGet])
  | cons p rest ih =>
    intro acc k
    obtain ⟨kp, vp⟩ := p
    show (dGet (rest.foldl (mergeItem tomb) (mergeItem tomb acc (kp, vp))).1 k = _) ∧
      (k ∈ (rest.foldl (mergeItem tomb) (mergeItem tomb acc (kp, vp))).2 ↔ _)
    by_cases hres : (dGet acc.1 kp).isSome = true ∨ kp ∈ acc.2
    · have hacc : mergeItem tomb acc (kp, vp) = acc := by
        unfold mergeItem
        rw [if_pos hres]
      rw [hacc]
      obtain ⟨ih1, ih2⟩ := ih acc k
      by_cases hk : kp = k
      · subst hk
        constructor
        · rw [ih1, if_pos hres, if_pos hres]
        · rw [ih2]
          constructor
          · rintro (h | ⟨h1, h2, _⟩)
            · exact Or.inl h
            · rcases hres with hr | hr
              · rw [h1] at hr
                simp at hr
              · exact absurd hr h2
          · rintro (h | ⟨h1, h2, _⟩)
            · exact Or.inl h
            · rcases hres with hr | hr
              · rw [h1] at hr
                simp at hr
              · exact absurd hr h2
      · have hd : dGet ((kp, vp) :: rest) k = dGet rest k := dGet_cons_ne rest vp hk
        constructor
        · rw [ih1, hd]
        · rw [ih2, hd]
    · push_neg at hres
      obtain ⟨hres1, hres2⟩ := hres
      have hnone : dGet acc.1 kp = none := by simpa using hres1
      by_cases hv : vp = tomb
      · have hacc : mergeItem tomb acc (kp, vp) = (acc.1, acc.2 ++ [kp]) := by
          unfold mergeItem
          rw [if_neg (by push_neg; exact ⟨hres1, hres2⟩), if_pos hv]
        rw [hacc]
        obtain ⟨ih1, ih2⟩ := ih (acc.1, acc.2 ++ [kp]) k
        by_cases hk : kp = k
        · subst hk
          have hC' : (dGet acc.1 kp).isSome = true ∨ kp ∈ acc.2 ++ [kp] :=
            Or.inr (by simp)
          have hC : ¬((dGet acc.1 kp).isSome = true ∨ kp ∈ acc.2) := by
            push_neg
            exact ⟨hres1, hres2⟩
          constructor
          · rw [ih1, if_pos hC', if_neg hC, dGet_cons_self, hnone]
            show (none : Option Txt) = if vp = tomb then none else some vp
            rw [if_pos hv]
          · rw [ih2, dGet_cons_self]
            constructor
            · intro _
              exact Or.inr ⟨hnone, hres2, by rw [hv]⟩
            · intro _
              exact Or.inl (by simp)
        · have hd : dGet ((kp, vp) :: rest) k = dGet rest k := dGet_cons_ne rest vp hk
          have hmem : k ∈ acc.2 ++ [kp] ↔ k ∈ acc.2 := by
            simp only [List.mem_append, List.mem_singleton]
            constructor
            · rintro (h | h)
              · exact h
              · exact absurd h.symm hk
            · exact Or.inl
          constructor
          · rw [ih1, hd]
            by_cases hC : (dGet acc.1 k).isSome = true ∨ k ∈ acc.2
            · rw [if_pos hC, if_pos]
              rcases hC with h | h
              · exact Or.inl h
              · exact Or.inr (hmem.mpr h)
            · rw [if_neg hC, if_neg]
              intro hcon
              rcases hcon with h | h
              · exact hC (Or.inl h)
              · exact hC (Or.inr (hmem.mp h))
          · rw [ih2, hd, hmem]
      · have hacc : mergeItem tomb acc (kp, vp) = (dSet acc.1 kp vp, acc.2) := by
          unfold mergeItem
          rw [if_neg (by push_neg; exact ⟨hres1, hres2⟩), if_neg hv]
        rw [hacc]
        obtain ⟨ih1, ih2⟩ := ih (dSet acc.1 kp vp, acc.2) k
        by_cases hk : kp = k
        · subst hk
          have hds : dGet (dSet acc.1 kp vp) kp = some vp := dGet_dSet_self _ _ _
          have hC' : (dGet (dSet acc.1 kp vp) kp).isSome = true ∨ kp ∈ acc.2 :=
            Or.inl (by rw [hds]; rfl)
          have hC : ¬((dGet acc.1 kp).isSome = true ∨ kp ∈ acc.2) := by
            push_neg
            exact ⟨hres1, hres2⟩
          constructor
          · rw [ih1, if_pos hC', if_neg hC, hds, dGet_cons_self]
            show some vp = if vp = tomb then none else some vp
            rw [if_neg hv]
          · rw [ih2, hds, dGet_cons_self]
            constructor
            · rintro (h | ⟨h1, _, _⟩)
              · exact absurd h hres2
              · simp at h1
            · rintro (h | ⟨_, _, h3⟩)
              · exact absurd h hres2
              · rw [Option.some.injEq] at h3
                exact absurd h3 hv
        · have hd : dGet ((kp, vp) :: rest) k = dGet rest k := dGet_cons_ne rest vp hk
          have hds : dGet (dSet acc.1 kp vp) k = dGet acc.1 k := dGet_dSet_ne _ _ hk
          constructor
          · rw [ih1, hd, hds]
          · rw [ih2, hd, hds]

theorem mergeSeg_eq_items (tomb : Txt) {s : SSTSeg} {m : List (Txt × Txt)}
    (h : WfSSTOf s m) (acc : List (Txt × Txt) × List Txt) :
    mergeSeg tomb acc s = (sortItems m).foldl (mergeItem tomb) acc := by
  obtain ⟨hwf, hnd, hdisk, hcontent, _⟩ := h
  have hwfs : ∀ p ∈ sortItems m, wfPair p :=
    fun p hp => hwf p ((sortItems_perm m).mem_iff.mp hp)
  have htabs : ∀ p ∈ sortItems m, '\t' ∉ p.1 := fun p hp => (hwfs p hp).1.1
  unfold mergeSeg
  rw [hdisk]
  simp only [Bool.not_true, Bool.false_eq_true, if_false]
  rw [hcontent, splitNl_sstText _ hwfs, foldl_mergeLine_map tomb _ htabs acc]

theorem mergeSegs_spec (L : List SSTSeg) :
    (∀ s ∈ L, ∃ m, WfSSTOf s m) →
    ∀ (acc : List (Txt × Txt) × List Txt) (k : Txt),
      (dGet (L.foldl (mergeSeg TOMBSTONE) acc).1 k =
        if (dGet acc.1 k).isSome = true ∨ k ∈ acc.2 then dGet acc.1 k
        else match L.findSome? (fun s => searchVal s k) with
             | some v => if v = TOMBSTONE then none else some v
             | none => none) ∧
      (k ∈ (L.foldl (mergeSeg TOMBSTONE) acc).2 ↔
        k ∈ acc.2 ∨ (dGet acc.1 k = none ∧ k ∉ acc.2 ∧
          L.findSome? (fun s => searchVal s k) = some TOMBSTONE)) := by
  induction L with
  | nil =>
    intro _ acc k
    constructor
    · by_cases hres : (dGet acc.1 k).isSome = true ∨ k ∈ acc.2
      · rw [if_pos hres]
        rfl
      · rw [if_neg hres]
        push_neg at hres
        simpa using hres.1
    · show k ∈ acc.2 ↔ _
      constructor
      · exact Or.inl
      · rintro (h | ⟨_, _, h⟩)
        · exact h
        · simp [List.findSome?] at h
  | cons s rest ih =>
    intro hL acc k
    obtain ⟨m, hm⟩ := hL s (List.mem_cons_self _ _)
    have hrest : ∀ t ∈ rest, ∃ mt, WfSSTOf t mt :=
      fun t ht => hL t (List.mem_cons_of_mem _ ht)
    have hnd' : ((sortItems m).map Prod.fst).Nodup :=
      (((sortItems_perm m).map Prod.fst).nodup_iff).mpr hm.2.1
    have hsv : searchVal s k = dGet (sortItems m) k := by
      show (s.search k).1 = dGet (sortItems m) k
      rw [(search_wf hm k).1]
      exact (dGet_perm (sortItems_perm m) hnd' k).symm
    show (dGet (rest.foldl (mergeSeg TOMBSTONE) (mergeSeg TOMBSTONE acc s)).1 k = _) ∧
      (k ∈ (rest.foldl (mergeSeg TOMBSTONE) (mergeSeg TOMBSTONE acc s)).2 ↔ _)
    rw [mergeSeg_eq_items TOMBSTONE hm acc]
    obtain ⟨i1, i2⟩ := mergeItems_spec TOMBSTONE (sortItems m) acc k
    obtain ⟨r1, r2⟩ := ih hrest ((sortItems m).foldl (mergeItem TOMBSTONE) acc) k
    simp only [List.findSome?_cons, hsv]
    by_cases hC : (dGet acc.1 k).isSome = true ∨ k ∈ acc.2
    · -- already resolved before this segment
      have hg' : dGet ((sortItems m).foldl (mergeItem TOMBSTONE) acc).1 k
          = dGet acc.1 k := by rw [i1, if_pos hC]
      have hC' : (dGet ((sortItems m).foldl (mergeItem TOMBSTONE) acc).1 k).isSome = true
          ∨ k ∈ ((sortItems m).foldl (mergeItem TOMBSTONE) acc).2 := by
        rcases hC with h | h
        · exact Or.inl (hg' ▸ h)
        · exact Or.inr (i2.mpr (Or.inl h))
      constructor
      · rw [r1, if_pos hC', hg', if_pos hC]
      · rw [r2, i2]
        by_cases hks : k ∈ acc.2
        · simp [hks]
        · rcases hC with h | h
          · have hne : dGet acc.1 k ≠ none := by
              intro hcon
              rw [hcon] at h
              simp at h
            have hg'ne : dGet ((sortItems m).foldl (mergeItem TOMBSTONE) acc).1 k ≠ none := by
              rw [hg']
              exact hne
            simp [hks, hne, hg'ne]
          · exact absurd h hks
    · push_neg at hC
      obtain ⟨hC1, hC2⟩ := hC
      have hnone : dGet acc.1 k = none := by simpa using hC1
      have hg' : dGet ((sortItems m).foldl (mergeItem TOMBSTONE) acc).1 k
          = match dGet (sortItems m) k with
            | some v => if v = TOMBSTONE then none else some v
            | none => none := by
        rw [i1, if_neg (by push_neg; exact ⟨hC1, hC2⟩)]
      have hm' : k ∈ ((sortItems m).foldl (mergeItem TOMBSTONE) acc).2
          ↔ dGet (sortItems m) k = some TOMBSTONE := by
        rw [i2]
        constructor
        · rintro (h | ⟨_, _, h⟩)
          · exact absurd h hC2
          · exact h
        · intro h
          exact Or.inr ⟨hnone, hC2, h⟩
      cases hdm : dGet (sortItems m) k with
      | some v =>
        by_cases hvt : v = TOMBSTONE
        · subst hvt
          have hmem : k ∈ ((sortItems m).foldl (mergeItem TOMBSTONE) acc).2 :=
            hm'.mpr hdm
          have hga : dGet ((sortItems m).foldl (mergeItem TOMBSTONE) acc).1 k
              = none := by
            rw [hg']
            simp [hdm]
          constructor
          · rw [r1, if_pos (Or.inr hmem), hga,
              if_neg (show ¬((dGet acc.1 k).isSome = true ∨ k ∈ acc.2) by
                push_neg; exact ⟨hC1, hC2⟩)]
            simp
          · rw [r2]
            constructor
            · intro _
              exact Or.inr ⟨hnone, hC2, rfl⟩
            · intro _
              exact Or.inl hmem
        · have hga : dGet ((sortItems m).foldl (mergeItem TOMBSTONE) acc).1 k
              = some v := by
            rw [hg']
            simp [hdm, hvt]
          have hmem : ¬ k ∈ ((sortItems m).foldl (mergeItem TOMBSTONE) acc).2 := by
            rw [hm', hdm]
            simp [hvt]
          constructor
          · rw [r1, if_pos (Or.inl (show (dGet _ k).isSome = true by rw [hga]; rfl)),
              hga,
              if_neg (show ¬((dGet acc.1 k).isSome = true ∨ k ∈ acc.2) by
                push_neg; exact ⟨hC1, hC2⟩)]
            simp [hvt]
          · rw [r2]
            constructor
            · rintro (h | ⟨h1, _, _⟩)
              · exact absurd h hmem
              · rw [hga] at h1
                simp at h1
            · rintro (h | ⟨_, _, h3⟩)
              · exact absurd h hC2
              · simp at h3
                exact absurd h3 hvt
      | none =>
        have hga : dGet ((sortItems m).foldl (mergeItem TOMBSTONE) acc).1 k
            = none := by
          rw [hg']
          simp [hdm]
        have hmem : ¬ k ∈ ((sortItems m).foldl (mergeItem TOMBSTONE) acc).2 := by
          rw [hm', hdm]
          simp
        constructor
        · rw [r1,
            if_neg (show ¬((dGet _ k).isSome = true ∨
                k ∈ ((sortItems m).foldl (mergeItem TOMBSTONE) acc).2) by
              push_neg
              exact ⟨by rw [hga]; simp, hmem⟩),
            if_neg (show ¬((dGet acc.1 k).isSome = true ∨ k ∈ acc.2) by
              push_neg; exact ⟨hC1, hC2⟩)]
        · rw [r2]
          constructor
          · rintro (h | ⟨_, _, h3⟩)
            · exact absurd h hmem
            · exact Or.inr ⟨hnone, hC2, h3⟩
          · rintro (h | ⟨_, _, h3⟩)
            · exact absurd h hC2
            · exact Or.inr ⟨hga, hmem, h3⟩

theorem mergeItems_entries (tomb : Txt) (items : List (Txt × Txt)) :
    ∀ acc : List (Txt × Txt) × List Txt,
      (∀ p ∈ (items.foldl (mergeItem tomb) acc).1,
        p ∈ acc.1 ∨ (p ∈ items ∧ p.2 ≠ tomb)) ∧
      ((acc.1.map Prod.fst).Nodup →
        (((items.foldl (mergeItem tomb) acc).1).map Prod.fst).Nodup) := by
  induction items with
  | nil =>
    intro acc
    exact ⟨fun p hp => Or.inl hp, fun h => h⟩
  | cons q rest ih =>
    intro acc
    obtain ⟨kq, vq⟩ := q
    constructor
    · intro p hp
      rcases (ih (mergeItem tomb acc (kq, vq))).1 p hp with hin | hin
      · unfold mergeItem at hin
        split_ifs at hin with h1 h2
        · exact Or.inl hin
        · exact Or.inl hin
        · rcases mem_dSet hin with hin | hin
          · exact Or.inl hin
          · subst hin
            exact Or.inr ⟨List.mem_cons_self _ _, h2⟩
      · exact Or.inr ⟨List.mem_cons_of_mem _ hin.1, hin.2⟩
    · intro hnd
      apply (ih (mergeItem tomb acc (kq, vq))).2
      unfold mergeItem
      split_ifs
      · exact hnd
      · exact hnd
      · exact dSet_nodupKeys hnd _ _

theorem mergeSegs_entries (L : List SSTSeg) :
    (∀ s ∈ L, ∃ m, WfSSTOf s m) →
    ∀ acc : List (Txt × Txt) × List Txt,
      (∀ p ∈ (L.foldl (mergeSeg TOMBSTONE) acc).1,
        p ∈ acc.1 ∨ (wfPair p ∧ p.2 ≠ TOMBSTONE)) ∧
      ((acc.1.map Prod.fst).Nodup →
        (((L.foldl (mergeSeg TOMBSTONE) acc).1).map Prod.fst).Nodup) := by
  induction L with
  | nil =>
    intro _ acc
    exact ⟨fun p hp => Or.inl hp, fun h => h⟩
  | cons s rest ih =>
    intro hL acc
    obtain ⟨m, hm⟩ := hL s (List.mem_cons_self _ _)
    have hrest : ∀ t ∈ rest, ∃ mt, WfSSTOf t mt :=
      fun t ht => hL t (List.mem_cons_of_mem _ ht)
    have hwfs : ∀ p ∈ sortItems m, wfPair p :=
      fun p hp => hm.1 p ((sortItems_perm m).mem_iff.mp hp)
    constructor
    · intro p hp
      rcases (ih hrest (mergeSeg TOMBSTONE acc s)).1 p hp with hin | hin
      · rw [mergeSeg_eq_items TOMBSTONE hm acc] at hin
        rcases (mergeItems_entries TOMBSTONE (sortItems m) acc).1 p hin with hin | hin
        · exact Or.inl hin
        · exact Or.inr ⟨hwfs p hin.1, hin.2⟩
      · exact Or.inr hin
    · intro hnd
      apply (ih hrest (mergeSeg TOMBSTONE acc s)).2
      rw [mergeSeg_eq_items TOMBSTONE hm acc]
      exact (mergeItems_entries TOMBSTONE (sortItems m) acc).2 hnd

/-- The pure value returned by `MiniKV.get` on an open engine (the effective
value of a key: MemTable first, then SSTs newest to oldest, tombstone means
absent). -/
def getVal (e : MiniKV) (k : Txt) : Option Txt :=
  match dGet e.memtable k with
  | some v => if v = TOMBSTONE then none else some v
  | none =>
    match (e.sstFiles.reverse).findSome? (fun s => searchVal s k) with
    | some v => if v = TOMBSTONE then none else some v
    | none => none

theorem get_fst_spec (e : MiniKV) (k : Txt) (h : e.isOpen = true) :
    (e.get k).1 = .ok (getVal e k) := by
  unfold MiniKV.get getVal
  rw [h]
  simp only [Bool.not_true, Bool.false_eq_true, if_false]
  cases hdg : dGet e.memtable k with
  | some v => simp only [hdg]
  | none =>
    simp only [hdg]
    rw [← getLoop_fst]
    cases hr : (getLoop k e.sstFiles.reverse).1 <;> simp [hr]

theorem getVal_eq_of {e1 e2 : MiniKV} (hm : e1.memtable = e2.memtable)
    (hs : e1.sstFiles = e2.sstFiles) (k : Txt) : getVal e1 k = getVal e2 k := by
  unfold getVal
  rw [hm, hs]

/-- Engine states the compaction claim quantifies over: well-formed MemTable
entries with unique keys, and every SST descriptor is an on-disk
`write_from_memtable` image of some snapshot. -/
def WfEngine (e : MiniKV) : Prop :=
  (∀ p ∈ e.memtable, wfPair p) ∧
  (e.memtable.map Prod.fst).Nodup ∧
  (∀ s ∈ e.sstFiles, ∃ m, WfSSTOf s m)

theorem flush_facts (e : MiniKV) (hwf : WfEngine e) :
    (flushToSst e).memtable = [] ∧
    WfEngine (flushToSst e) ∧
    (∀ k, getVal (flushToSst e) k = getVal e k) := by
  obtain ⟨hwf1, hwf2, hwf3⟩ := hwf
  rcases flushToSst_cases e with ⟨hm, hfe⟩ | ⟨hm, hfe⟩
  · rw [hfe]
    refine ⟨hm, ⟨hwf1, hwf2, hwf3⟩, fun k => rfl⟩
  · rw [hfe]
    refine ⟨rfl, ⟨by simp, by simp, ?_⟩, ?_⟩
    · intro s hs
      simp only [List.mem_append, List.mem_singleton] at hs
      rcases hs with hs | hs
      · exact hwf3 s hs
      · subst hs
        exact ⟨e.memtable, wfSSTOf_write _ hwf1 hwf2⟩
    · intro k
      have hsv : searchVal (writeFromMemtable e.memtable) k = dGet e.memtable k :=
        (search_wf (wfSSTOf_write _ hwf1 hwf2) k).1
      unfold getVal
      simp only [List.reverse_append, List.reverse_cons, List.reverse_nil,
        List.nil_append, List.singleton_append, List.findSome?_cons, hsv]
      cases hdg : dGet e.memtable k with
      | some v => simp [dGet, hdg]
      | none => simp [dGet, hdg]

theorem getVal_no_sst (e' : MiniKV) (hm : e'.memtable = [])
    (hs : e'.sstFiles = []) (k : Txt) : getVal e' k = none := by
  unfold getVal
  rw [hm, hs]
  rfl

theorem getVal_single_sst (e' : MiniKV) (m : List (Txt × Txt))
    (hm : e'.memtable = []) (hs : e'.sstFiles = [writeFromMemtable m])
    (hwfm : ∀ p ∈ m, wfPair p) (hnd : (m.map Prod.fst).Nodup) (k : Txt) :
    getVal e' k =
      match dGet m k with
      | some v => if v = TOMBSTONE then none else some v
      | none => none := by
  unfold getVal
  rw [hm, hs]
  have hsv' : searchVal (writeFromMemtable m) k = dGet m k :=
    (search_wf (wfSSTOf_write m hwfm hnd) k).1
  show (match ([writeFromMemtable m].reverse.findSome? (fun s => searchVal s k)) with
      | some v => if v = TOMBSTONE then none else some v
      | none => none) = _
  simp only [List.reverse_cons, List.reverse_nil, List.nil_append,
    List.findSome?_cons, List.findSome?_nil, hsv']
  cases hdd : dGet m k <;> rfl

/-- Claim C4: after every successful `compact_all` on an open engine with
well-formed contents, no surviving SST stores the tombstone sentinel, the
union of the surviving SSTs' entries is exactly the set of keys whose
effective value before compaction was not absent (each mapped to that
value), and `get` is unchanged by compaction for every key. -/
theorem C4_compaction_preserves (e : MiniKV) (ho : e.isOpen = true)
    (hwf : WfEngine e) :
    (∀ s ∈ ((compactAll e).2).sstFiles, ∀ p ∈ sstEntries s, p.2 ≠ TOMBSTONE) ∧
    (∀ k v, (∃ s ∈ ((compactAll e).2).sstFiles, (k, v) ∈ sstEntries s) ↔
      (e.get k).1 = .ok (some v)) ∧
    (∀ k, (((compactAll e).2).get k).1 = (e.get k).1) := by
  obtain ⟨hfm, hfwf, hfval⟩ := flush_facts e hwf
  have hL : ∀ s ∈ (flushToSst e).sstFiles.reverse, ∃ m, WfSSTOf s m := by
    intro s hs
    exact hfwf.2.2 s (List.mem_reverse.mp hs)
  have hmg : ∀ k,
      dGet ((flushToSst e).sstFiles.reverse.foldl (mergeSeg TOMBSTONE) ([], [])).1 k =
      match (flushToSst e).sstFiles.reverse.findSome? (fun s => searchVal s k) with
      | some v => if v = TOMBSTONE then none else some v
      | none => none := by
    intro k
    have hh := (mergeSegs_spec (flushToSst e).sstFiles.reverse hL ([], []) k).1
    rw [hh, if_neg (by simp [dGet])]
  have hgv : ∀ k, getVal (flushToSst e) k =
      dGet ((flushToSst e).sstFiles.reverse.foldl (mergeSeg TOMBSTONE) ([], [])).1 k := by
    intro k
    rw [hmg k]
    unfold getVal
    rw [hfm]
    rfl
  have hgete : ∀ k, (e.get k).1 = .ok (getVal (flushToSst e) k) := by
    intro k
    rw [get_fst_spec e k ho, hfval k]
  have hE1open : (flushToSst e).isOpen = true :=
    (flushToSst_proj e).2.2.2.2.1.trans ho
  rcases (compactAll_shape e ho).2 with ⟨heq, hnil⟩ | ⟨hne, hrest⟩
  · refine ⟨?_, ?_, ?_⟩
    · intro s hs
      rw [heq, hnil] at hs
      simp at hs
    · intro k v
      constructor
      · rintro ⟨s, hs, _⟩
        rw [heq, hnil] at hs
        simp at hs
      · intro hgk
        rw [hgete k] at hgk
        simp only [Except.ok.injEq] at hgk
        rw [hgv k, hnil] at hgk
        simp [dGet] at hgk
    · intro k
      rcases flushToSst_cases e with ⟨_, hfe⟩ | ⟨_, hfe⟩
      · rw [heq, hfe]
      · rw [hfe] at hnil
        simp at hnil
  · have hndm : ((((flushToSst e).sstFiles.reverse.foldl (mergeSeg TOMBSTONE)
        ([], [])).1).map Prod.fst).Nodup :=
      (mergeSegs_entries (flushToSst e).sstFiles.reverse hL ([], [])).2 (by simp)
    have hpm : ∀ p ∈ ((flushToSst e).sstFiles.reverse.foldl (mergeSeg TOMBSTONE)
        ([], [])).1, wfPair p ∧ p.2 ≠ TOMBSTONE := by
      intro p hp
      rcases (mergeSegs_entries (flushToSst e).sstFiles.reverse hL ([], [])).1 p hp
        with hin | hin
      · simp at hin
      · exact hin
    have hwm : ∀ p ∈ ((flushToSst e).sstFiles.reverse.foldl (mergeSeg TOMBSTONE)
        ([], [])).1, wfPair p := fun p hp => (hpm p hp).1
    rcases hrest with ⟨hmd, heq⟩ | ⟨hmd, heq⟩
    · -- merge result empty: no SST is written
      have hresm : ((compactAll e).2).memtable = [] := by
        rw [heq, (checkpointWal_proj _).2.1]
        exact hfm
      have hress : ((compactAll e).2).sstFiles = [] := by
        rw [heq, (checkpointWal_proj _).2.2.1]
      have hreso : ((compactAll e).2).isOpen = true := by
        rw [heq, (checkpointWal_proj _).2.2.2.1]
        exact hE1open
      refine ⟨?_, ?_, ?_⟩
      · intro s hs
        rw [hress] at hs
        simp at hs
      · intro k v
        constructor
        · rintro ⟨s, hs, _⟩
          rw [hress] at hs
          simp at hs
        · intro hgk
          rw [hgete k] at hgk
          simp only [Except.ok.injEq] at hgk
          rw [hgv k, hmd] at hgk
          simp [dGet] at hgk
      · intro k
        rw [get_fst_spec _ k hreso, hgete k,
          getVal_no_sst _ hresm hress k, hgv k, hmd]
        rfl
    · -- merge result non-empty: a single compacted SST is written
      have hresm : ((compactAll e).2).memtable = [] := by
        rw [heq, (checkpointWal_proj _).2.1]
        exact hfm
      have hress : ((compactAll e).2).sstFiles =
          [writeFromMemtable (((flushToSst e).sstFiles.reverse.foldl
            (mergeSeg TOMBSTONE) ([], [])).1)] := by
        rw [heq, (checkpointWal_proj _).2.2.1]
      have hreso : ((compactAll e).2).isOpen = true := by
        rw [heq, (checkpointWal_proj _).2.2.2.1]
        exact hE1open
      have hsE : sstEntries (writeFromMemtable (((flushToSst e).sstFiles.reverse.foldl
          (mergeSeg TOMBSTONE) ([], [])).1)) =
          sortItems (((flushToSst e).sstFiles.reverse.foldl
            (mergeSeg TOMBSTONE) ([], [])).1) :=
        sstEntries_write _ hwm
      refine ⟨?_, ?_, ?_⟩
      · intro s hs p hp
        rw [hress] at hs
        simp only [List.mem_singleton] at hs
        subst hs
        rw [hsE] at hp
        exact (hpm p ((sortItems_perm _).mem_iff.mp hp)).2
      · intro k v
        constructor
        · rintro ⟨s, hs, hpmem⟩
          rw [hress] at hs
          simp only [List.mem_singleton] at hs
          subst hs
          rw [hsE] at hpmem
          have hdm : dGet (((flushToSst e).sstFiles.reverse.foldl
              (mergeSeg TOMBSTONE) ([], [])).1) k = some v :=
            dGet_eq_some_of_mem hndm ((sortItems_perm _).mem_iff.mp hpmem)
          rw [hgete k, hgv k, hdm]
        · intro hgk
          rw [hgete k] at hgk
          simp only [Except.ok.injEq] at hgk
          rw [hgv k] at hgk
          refine ⟨_, by rw [hress]; exact List.mem_singleton.mpr rfl, ?_⟩
          rw [hsE]
          exact ((sortItems_perm _).mem_iff).mpr (mem_of_dGet_eq_some hgk)
      · intro k
        rw [get_fst_spec _ k hreso, hgete k,
          getVal_single_sst _ _ hresm hress hwm hndm k, hgv k]
        cases hdd : dGet (((flushToSst e).sstFiles.reverse.foldl
            (mergeSeg TOMBSTONE) ([], [])).1) k with
        | none => rfl
        | some v =>
          have hvt : v ≠ TOMBSTONE := (hpm (k, v) (mem_of_dGet_eq_some hdd)).2
          simp [hvt]

/-- A concrete open engine with a memtable entry and two SST segments (the
newer one shadowing key `k` with a tombstone). -/
def C4e : MiniKV :=
  { config := ⟨WriteMode.SYNC, 10, 5, 1000⟩
    memtable := [("c".data, "3".data)]
    sstFiles := [writeFromMemtable [("a".data, "1".data), ("k".data, "v".data)],
                 writeFromMemtable [("b".data, "2".data), ("k".data, TOMBSTONE)]]
    walContent := []
    walExists := true
    walHandle := true
    isOpen := true
    pendingWalOps := 0
    lastSyncTime := 0
    adaptiveBatchSize := 10
    fsyncCount := 0 }

theorem C4_witness :
    (((compactAll C4e).2).get "k".data).1 = Except.ok none ∧
    (((compactAll C4e).2).get "b".data).1 = Except.ok (some "2".data) ∧
    (((compactAll C4e).2).get "c".data).1 = Except.ok (some "3".data) := by
  have hwf : WfEngine C4e := by
    refine ⟨by decide, by decide, ?_⟩
    intro s hs
    simp only [C4e, List.mem_cons, List.not_mem_nil, or_false] at hs
    rcases hs with rfl | rfl
    · exact ⟨_, wfSSTOf_write _ (by decide) (by decide)⟩
    · exact ⟨_, wfSSTOf_write _ (by decide) (by decide)⟩
  have h := C4_compaction_preserves C4e rfl hwf
  refine ⟨?_, ?_, ?_⟩
  · rw [h.2.2 ("k".data)]
    rfl
  · rw [h.2.2 ("b".data)]
    rfl
  · rw [h.2.2 ("c".data)]
    rfl
